import Mathlib

/-!
Verification of the Cryptography-Projects-2025-7B repository.

Each project of the repository is shallowly embedded: Python functions become
Lean functions over `Nat`/`Int`/`List`/`Char`, Python `%` on integers becomes
`Int.emod` (for positive moduli they agree; where a modulus may be negative the
sign-of-divisor behaviour of Python `%` is modelled explicitly), fallible code
(Python exceptions / asserts) returns `Option`/`Except`.  External library
primitives (SHA-256 from `hashlib`) are abstracted as function parameters.
Strings are modelled as `List Char` restricted to ASCII (Lean's `Char.isAlpha`
and `Char.toUpper` agree with Python's on ASCII; the claims under study only
involve ASCII text).
-/

/-! ## Shared utilities -/

/-- Indexed map starting at index `k`: models Python `for j, v in enumerate(l)`
loops that also know the enumeration offset. -/
def Util.mapWithIdx (f : ℕ → α → β) : ℕ → List α → List β
  | _, [] => []
  | k, x :: xs => f k x :: Util.mapWithIdx f (k + 1) xs

/-- Fuel-driven worker for `Util.toBlocks`; structural recursion on the fuel
keeps the definition computable by the kernel.  The fuel is always the length
of the list, which bounds the number of nonempty-list steps. -/
def Util.toBlocksF : ℕ → ℕ → List α → List (List α)
  | _, _, [] => []
  | 0, _, l => [l]
  | fuel + 1, n, x :: xs => ((x :: xs).take n) :: Util.toBlocksF fuel n ((x :: xs).drop n)

/-- Blocks of size `n` (the last one may be shorter): models the Python idiom
`[l[i:i+n] for i in range(0, len(l), n)]`.  A block size of `0` would loop
forever in Python; the `0` case here is never used by the embeddings. -/
def Util.toBlocks (n : ℕ) (l : List α) : List (List α) :=
  Util.toBlocksF l.length n l

/-! ## Stego-2FA (1OX22CS116-2FA-Project/main.py) -/

/-- Embedding of `_spot_within_tolerance` from `main.py`: the click `(x, y)` is
accepted iff both absolute coordinate deltas from the saved secret point
`(sx, sy)` are within `tol`.  Python floats are modelled as exact rationals;
the default tolerance `0.02` is the rational `1/50`. -/
def Stego.spot_within_tolerance (x y sx sy : ℚ) (tol : ℚ) : Bool :=
  decide (|x - sx| ≤ tol) && decide (|y - sy| ≤ tol)

/-! ## Crack-Time Estimator (app.py) -/

/-- The `specials` character set of `estimate_entropy_bits`: a space plus the 32
ASCII punctuation characters (33 characters in total). -/
def CrackTime.specials : List Char :=
  [' ', '!', '\x22', '#', '$', '%', '&', '\x27', '(', ')', '*', '+', ',', '-', '.', '/',
   ':', ';', '<', '=', '>', '?', '@', '[', '\x5c', ']', '^', '_', '\x60', '\x7b', '|', '\x7d', '~']

/-- Charset-size computation of `estimate_entropy_bits`: sum the sizes of the
character classes present (26 lowercase, 26 uppercase, 10 digits, and
`specials.length` symbols), with a minimum of 1. -/
def CrackTime.charset_size (password : List Char) : ℕ :=
  let has_lower := password.any fun c => 'a' ≤ c && c ≤ 'z'
  let has_upper := password.any fun c => 'A' ≤ c && c ≤ 'Z'
  let has_digits := password.any fun c => '0' ≤ c && c ≤ '9'
  let has_symbols := password.any fun c => CrackTime.specials.contains c
  let size := (if has_lower then 26 else 0) + (if has_upper then 26 else 0) +
    (if has_digits then 10 else 0) + (if has_symbols then CrackTime.specials.length else 0)
  max size 1

/-- Embedding of `estimate_entropy_bits`: `0` for the empty password, otherwise
`length * log2(charset_size)`. -/
noncomputable def CrackTime.estimate_entropy_bits (password : List Char) : ℝ :=
  if password = [] then 0
  else (password.length : ℝ) * Real.logb 2 (CrackTime.charset_size password)

/-- The unit table of `format_seconds`: year (365 d), month (30 d), week, day,
hour, minute, second, in seconds. -/
def CrackTime.units : List (ℕ × String) :=
  [(365 * 24 * 3600, "year"), (30 * 24 * 3600, "month"), (7 * 24 * 3600, "week"),
   (24 * 3600, "day"), (3600, "hour"), (60, "minute"), (1, "second")]

/-- One formatted part `"<qty> <name>(s)"` with the pluralization of
`format_seconds`. -/
def CrackTime.part (qty : ℕ) (name : String) : String :=
  Nat.repr qty ++ " " ++ name ++ (if qty != 1 then "s" else "")

/-- The greedy decomposition loop of `format_seconds`, with its early exit as
soon as two parts have been collected. -/
def CrackTime.formatUnits : List (ℕ × String) → ℕ → List String → List String
  | [], _, parts => parts
  | (u, name) :: rest, remaining, parts =>
    let next : ℕ × List String :=
      if u ≤ remaining then
        (remaining - (remaining / u) * u, parts ++ [CrackTime.part (remaining / u) name])
      else (remaining, parts)
    if 2 ≤ next.2.length then next.2 else CrackTime.formatUnits rest next.1 next.2

/-- Embedding of `format_seconds`.  `int(seconds)` truncates toward zero; for
`seconds ≥ 1` this is the floor, which is what the decomposition loop sees. -/
def CrackTime.format_seconds (seconds : ℚ) : String :=
  if seconds < 1 then "< 1s"
  else
    let parts := CrackTime.formatUnits CrackTime.units seconds.floor.toNat []
    if parts = [] then "< 1s" else String.intercalate ", " parts

/-! ## Diffie-Hellman demo (app/crypto_utils.py, app/routes.py) -/

/-- Python's `%` on integers: the result has the sign of the (nonzero) divisor.
For a positive divisor it coincides with `Int.emod`; for a negative one it is
`emod` shifted down by `|p|` unless it is zero. -/
def DH.pyMod (a p : ℤ) : ℤ :=
  if p < 0 ∧ a % p ≠ 0 then a % p + p else a % p

/-- Modular inverse as computed by Python's `pow(g, -1, p)`: defined exactly
when `gcd(g, p) = 1` (otherwise Python raises `ValueError`).  For a positive
modulus the value is found by scanning the residue range `[0, p)` for the
(unique) inverse representative, which is exactly the representative Python
returns.  (Negative moduli never reach this branch in any theorem below.) -/
def DH.invMod (g p : ℤ) : Option ℤ :=
  if Int.gcd g p = 1 then
    some (((((List.range p.natAbs).map fun k => (k : ℤ)).find?
      fun x => DH.pyMod (g * x) p = DH.pyMod 1 p).getD 0))
  else none

/-- Python's three-argument `pow(g, e, p)`: modular exponentiation, extended to
negative exponents via the modular inverse (raising, i.e. `none`, when the base
is not invertible), and failing for modulus `0`. -/
def DH.pow (g e p : ℤ) : Option ℤ :=
  if p = 0 then none
  else if 0 ≤ e then some (DH.pyMod (g ^ e.toNat) p)
  else (DH.invMod g p).map fun i => DH.pyMod (i ^ (-e).toNat) p

/-- Embedding of `compute_public_key(g, private_key, p) = pow(g, private_key, p)`. -/
def DH.compute_public_key (g private_key p : ℤ) : Option ℤ :=
  DH.pow g private_key p

/-- Embedding of `compute_shared_secret(other_public, private_key, p) =
pow(other_public, private_key, p)`. -/
def DH.compute_shared_secret (other_public private_key p : ℤ) : Option ℤ :=
  DH.pow other_public private_key p

/-- The JSON body of a successful `/api/compute` response. -/
structure DH.ComputeResponse where
  A : ℤ
  B : ℤ
  s1 : ℤ
  s2 : ℤ
  isMatch : Bool
deriving DecidableEq, Repr

/-- Embedding of the `/api/compute` handler core (routes.py): rejects any zero
input with an HTTP 400 (`Except.error 400`), propagates an uncaught Python
exception from `pow` as a 500, and otherwise reports both public keys, both
shared secrets, and whether they match. -/
def DH.api_compute (p g a b : ℤ) : Except ℕ DH.ComputeResponse :=
  if p = 0 ∨ g = 0 ∨ a = 0 ∨ b = 0 then .error 400
  else
    match DH.compute_public_key g a p, DH.compute_public_key g b p with
    | some A, some B =>
      match DH.compute_shared_secret B a p, DH.compute_shared_secret A b p with
      | some s1, some s2 => .ok ⟨A, B, s1, s2, s1 == s2⟩
      | _, _ => .error 500
    | _, _ => .error 500

/-! ## Tower-of-Babel obfuscation layer (towerofbabel2/crypto_utils.py) -/

/-- Embedding of `_split_blocks`: splits `data` into blocks of `blockSize`
bytes, failing (`assert`) when the length is not a multiple of the block
size. -/
def Babel.split_blocks (blockSize : ℕ) (data : List ℕ) : Option (List (List ℕ)) :=
  if data.length % blockSize = 0 then some (Util.toBlocks blockSize data) else none

/-- Embedding of `_join_blocks`. -/
def Babel.join_blocks (blocks : List (List ℕ)) : List ℕ :=
  blocks.flatten

/-- Lexicographic `≤` on byte strings, as Python compares `bytes` values. -/
def Babel.bytesLe : List ℕ → List ℕ → Bool
  | [], _ => true
  | _ :: _, [] => false
  | a :: as, b :: bs => if a < b then true else if b < a then false else Babel.bytesLe as bs

/-- Embedding of `_deterministic_permutation`: sort the indices `0..n-1` by
their digests.  The SHA-256 digest of `key || iv || i.to_bytes(4, "big")` is an
external `hashlib` primitive and is abstracted as the function `digest`
(one byte string per index); every theorem below holds for all such
functions.  Python's stable `list.sort` keyed on the digest is modelled by
(stable) insertion sort on digest order. -/
def Babel.deterministic_permutation (digest : ℕ → List ℕ) (n : ℕ) : List ℕ :=
  (((List.range n).map fun i => (digest i, i)).insertionSort
    fun s t => Babel.bytesLe s.1 t.1 = true).map Prod.snd

/-- Embedding of `obfuscate_ciphertext_blocks`: split into 16-byte blocks,
reorder them by the deterministic permutation, and return the permuted
ciphertext together with the permutation. -/
def Babel.obfuscate_ciphertext_blocks (digest : ℕ → List ℕ) (ciphertext : List ℕ) :
    Option (List ℕ × List ℕ) :=
  (Babel.split_blocks 16 ciphertext).map fun blocks =>
    let perm := Babel.deterministic_permutation digest blocks.length
    (Babel.join_blocks (perm.map fun i => blocks.getD i []), perm)

/-- The inverse-permutation array built by `deobfuscate_ciphertext_blocks`:
start from `[0] * n` and set `inv[src] = new_pos` for each
`(new_pos, src)` in `enumerate(perm)`. -/
def Babel.invArray (n : ℕ) (perm : List ℕ) : List ℕ :=
  (Util.mapWithIdx Prod.mk 0 perm).foldl (fun acc q => acc.set q.2 q.1) (List.replicate n 0)

/-- Embedding of `deobfuscate_ciphertext_blocks` (its unused `key`/`iv`
parameters are dropped): split, check the permutation length (`assert`), build
the inverse permutation, and restore the original block order. -/
def Babel.deobfuscate_ciphertext_blocks (permuted_ciphertext : List ℕ) (perm : List ℕ) :
    Option (List ℕ) :=
  (Babel.split_blocks 16 permuted_ciphertext).bind fun obf_blocks =>
    let n := obf_blocks.length
    if n = perm.length then
      let inv := Babel.invArray n perm
      some (Babel.join_blocks ((List.range n).map fun origIndex =>
        obf_blocks.getD (inv.getD origIndex 0) []))
    else none

/-! ## Caesar+Hill hybrid tool (cypher.py) -/

/-- ASCII uppercase conversion, as Python `str.upper()` acts on ASCII text. -/
def CaesarHill.upperChar (c : Char) : Char :=
  if 'a' ≤ c ∧ c ≤ 'z' then Char.ofNat (c.toNat - 32) else c

/-- The per-character body of the `caesar_encrypt` loop: uppercase, then shift
alphabetic characters by `shift` positions mod 26, pass other characters
through.  The shift is an integer because `caesar_decrypt(c, shift) =
caesar_encrypt(c, -shift)`; Python `% 26` on a possibly negative value is
`Int.emod`. -/
def CaesarHill.shiftChar (shift : ℤ) (c : Char) : Char :=
  if (CaesarHill.upperChar c).isAlpha then
    Char.ofNat (((((CaesarHill.upperChar c).toNat : ℤ) - 65 + shift) % 26 + 65).toNat)
  else CaesarHill.upperChar c

/-- Embedding of `caesar_encrypt`. -/
def CaesarHill.caesar_encrypt (text : List Char) (shift : ℤ) : List Char :=
  text.map (CaesarHill.shiftChar shift)

/-- Embedding of `caesar_decrypt(cipher, shift) = caesar_encrypt(cipher, -shift)`. -/
def CaesarHill.caesar_decrypt (cipher : List Char) (shift : ℤ) : List Char :=
  CaesarHill.caesar_encrypt cipher (-shift)

/-- Dot product over ℤ, as `np.dot` of an integer matrix row with a column
vector. -/
def CaesarHill.dot (row v : List ℤ) : ℤ :=
  ((row.zip v).map fun q => q.1 * q.2).sum

/-- Matrix-times-vector mod 26, one entry per matrix row. -/
def CaesarHill.matVec (m : List (List ℤ)) (v : List ℤ) : List ℤ :=
  m.map fun row => (CaesarHill.dot row v) % 26

/-- Embedding of `hill_encrypt`: map each character of the uppercased text to
`ord(c) - 65` (note: non-alphabetic characters are NOT filtered out, so they
produce values outside `[0, 26)`), pad with 25 (`Z`) to a multiple of the
matrix dimension, multiply each block by the key matrix mod 26, and map back to
letters. -/
def CaesarHill.hill_encrypt (text : List Char) (key : List (List ℤ)) : List Char :=
  let n := key.length
  let numbers := (text.map CaesarHill.upperChar).map fun c => (c.toNat : ℤ) - 65
  let padded := numbers ++ List.replicate ((n - numbers.length % n) % n) 25
  (((Util.toBlocks n padded).map fun block => CaesarHill.matVec key block).flatten).map
    fun num => Char.ofNat ((num + 65).toNat)

/-- The 2×2 determinant; `int(np.round(np.linalg.det(k)))` is exact for the
small integer matrices involved. -/
def CaesarHill.det2 (key : List (List ℤ)) : ℤ :=
  (key.getD 0 []).getD 0 0 * (key.getD 1 []).getD 1 0 -
    (key.getD 0 []).getD 1 0 * (key.getD 1 []).getD 0 0

/-- The adjugate of a 2×2 matrix: `np.round(det * np.linalg.inv(key))` is
exactly the adjugate for an integer matrix. -/
def CaesarHill.adj2 (key : List (List ℤ)) : List (List ℤ) :=
  [[(key.getD 1 []).getD 1 0, -(key.getD 0 []).getD 1 0],
   [-(key.getD 1 []).getD 0 0, (key.getD 0 []).getD 0 0]]

/-- The inverse key matrix computed inside `hill_decrypt`: `det_inv = pow(det,
-1, 26)` (`none` if the determinant is not invertible mod 26, where Python
raises), times the adjugate, mod 26. -/
def CaesarHill.invKey (key : List (List ℤ)) : Option (List (List ℤ)) :=
  (DH.invMod (CaesarHill.det2 key) 26).map fun det_inv =>
    (CaesarHill.adj2 key).map fun row => row.map fun x => (det_inv * x) % 26

/-- Embedding of `hill_decrypt` for a 2×2 key: build the modular inverse of the
key matrix and apply it like `hill_encrypt` but without padding. -/
def CaesarHill.hill_decrypt (cipher : List Char) (key : List (List ℤ)) :
    Option (List Char) :=
  (CaesarHill.invKey key).map fun inv =>
    let numbers := (cipher.map CaesarHill.upperChar).map fun c => (c.toNat : ℤ) - 65
    (((Util.toBlocks key.length numbers).map fun block =>
      CaesarHill.matVec inv block).flatten).map fun num => Char.ofNat ((num + 65).toNat)

/-- Embedding of `hybrid_encrypt`: Caesar stage, then Hill stage; returns both
the intermediate Caesar output and the final hybrid output. -/
def CaesarHill.hybrid_encrypt (message : List Char) (shift : ℤ) (key : List (List ℤ)) :
    List Char × List Char :=
  let caesar_out := CaesarHill.caesar_encrypt message shift
  (caesar_out, CaesarHill.hill_encrypt caesar_out key)

/-- Embedding of `hybrid_decrypt`: reverse the Hill stage, then the Caesar
stage; returns both the intermediate Hill-decrypted text and the recovered
plaintext. -/
def CaesarHill.hybrid_decrypt (cipher : List Char) (shift : ℤ) (key : List (List ℤ)) :
    Option (List Char × List Char) :=
  (CaesarHill.hill_decrypt cipher key).map fun hill_out =>
    (hill_out, CaesarHill.caesar_decrypt hill_out shift)

/-- The fixed key matrix `[[3, 3], [2, 5]]` of the desktop tool. -/
def CaesarHill.fixedKey : List (List ℤ) :=
  [[3, 3], [2, 5]]

/-! ## Poly-Hill Cipher (polyhillcipherforiot/poly_hill_cipher.py) -/

/-- Integer XOR as Python computes it on the nonnegative values that reach the
obfuscation step (every operand has been reduced `% p` first). -/
def PolyHill.xorZ (a b : ℤ) : ℤ :=
  ((a.toNat ^^^ b.toNat : ℕ) : ℤ)

/-- Polynomial evaluation `P(x) mod p` as in `_build_lookup_tables`: the
accumulator is reduced `% p` after each term `coeff * x^i`. -/
def PolyHill.polyEval (coeffs : List ℤ) (p : ℤ) (x : ℤ) : ℤ :=
  (Util.mapWithIdx (fun i coeff => coeff * x ^ i) 0 coeffs).foldl
    (fun poly_value t => (poly_value + t) % p) 0

/-- Embedding of `_polynomial_transform`: the `poly_lookup` table maps `x % p`
to `P(x % p) mod p`. -/
def PolyHill.polynomial_transform (coeffs : List ℤ) (p : ℤ) (x : ℤ) : ℤ :=
  PolyHill.polyEval coeffs p (x % p)

/-- Embedding of `_inverse_polynomial_transform`: `inverse_lookup` is built by
`inverse_lookup[P(x)] = x` for `x = 0, ..., p-1` in order, so a later `x`
silently overwrites an earlier one mapping to the same value (dict last-write
wins); lookups miss to the default `0`. -/
def PolyHill.inverse_polynomial_transform (coeffs : List ℤ) (p : ℤ) (y : ℤ) : ℤ :=
  ((((List.range p.toNat).map fun x => (x : ℤ)).filter
    fun x => PolyHill.polyEval coeffs p x = y % p).getLast?).getD 0

/-- Embedding of `_text_to_numbers`: keep only alphabetic characters, uppercase
them, and map to 0-based alphabet positions. -/
def PolyHill.text_to_numbers (text : List Char) : List ℤ :=
  (text.filter Char.isAlpha).map fun c => (c.toUpper.toNat : ℤ) - 65

/-- Embedding of `_numbers_to_text`: `chr((num % p) + ord('A'))`. -/
def PolyHill.numbers_to_text (p : ℤ) (numbers : List ℤ) : List Char :=
  numbers.map fun num => Char.ofNat ((num % p + 65).toNat)

/-- Embedding of `_pad_text`: append the pad value 23 (`X`) until the length is
a multiple of the block size `n` (for `n > 0`; `n = 0` loops forever in
Python and never occurs). -/
def PolyHill.pad_text (n : ℕ) (numbers : List ℤ) : List ℤ :=
  numbers ++ List.replicate ((n - numbers.length % n) % n) 23

/-- One matrix-times-column-vector product mod `p` (`(m @ block) % p`). -/
def PolyHill.matVec (m : List (List ℤ)) (p : ℤ) (v : List ℤ) : List ℤ :=
  m.map fun row => (((row.zip v).map fun (q : ℤ × ℤ) => q.1 * q.2).sum) % p

/-- The position-dependent obfuscation of `encrypt` applied to one block with
block index `i`: XOR the `j`-th value with `(i + j) % p`, then reduce the XOR
result `% p` again. -/
def PolyHill.obfuscateBlock (p : ℤ) (i : ℕ) (block : List ℤ) : List ℤ :=
  Util.mapWithIdx (fun j val => (PolyHill.xorZ val (((i : ℤ) + (j : ℤ)) % p)) % p) 0 block

/-- The inverse obfuscation step of `decrypt` applied to one block. -/
def PolyHill.deobfuscateBlock (p : ℤ) (i : ℕ) (block : List ℤ) : List ℤ :=
  Util.mapWithIdx (fun j val => (PolyHill.xorZ val (((i : ℤ) + (j : ℤ)) % p)) % p) 0 block

/-- The three encryption layers of `encrypt` on one block of index `i`:
polynomial lookup on each value, Hill matrix, obfuscation. -/
def PolyHill.encryptBlock (coeffs : List ℤ) (m : List (List ℤ)) (p : ℤ) (i : ℕ)
    (block : List ℤ) : List ℤ :=
  PolyHill.obfuscateBlock p i
    (PolyHill.matVec m p (block.map (PolyHill.polynomial_transform coeffs p)))

/-- The three decryption layers of `decrypt` on one block of index `i`:
inverse obfuscation, inverse Hill matrix, inverse polynomial lookup. -/
def PolyHill.decryptBlock (coeffs : List ℤ) (mInv : List (List ℤ)) (p : ℤ) (i : ℕ)
    (block : List ℤ) : List ℤ :=
  (PolyHill.matVec mInv p (PolyHill.deobfuscateBlock p i block)).map
    (PolyHill.inverse_polynomial_transform coeffs p)

/-- Strip trailing `'X'` characters (`rstrip('X')`). -/
def PolyHill.rstripX (text : List Char) : List Char :=
  (text.reverse.dropWhile fun c => c = 'X').reverse

/-- The mutable state of a `PolyHillCipher` object: block size `n`, modulus
`p`, and the optional key material (all `None` right after `__init__`).  The
lookup tables are recomputed from `polynomial_coeffs` instead of being stored
(they are always rebuilt whenever the coefficients change). -/
structure PolyHill.PolyHillCipher where
  n : ℕ
  p : ℤ
  polynomial_coeffs : Option (List ℤ)
  hill_matrix : Option (List (List ℤ))
  hill_matrix_inv : Option (List (List ℤ))

/-- Embedding of `PolyHillCipher.__init__`: keys not yet generated. -/
def PolyHill.init (block_size : ℕ) (modulus : ℤ) : PolyHill.PolyHillCipher :=
  ⟨block_size, modulus, none, none, none⟩

/-- Fuel-driven first-row Laplace expansion (the fuel is the matrix dimension,
which bounds the recursion depth); structural recursion keeps it computable by
the kernel. -/
def PolyHill.intDetF : ℕ → List (List ℤ) → ℤ
  | _, [] => 1
  | _, [row] => row.getD 0 0
  | 0, _ => 1
  | fuel + 1, row :: rest =>
    ((Util.mapWithIdx (fun j a => (-1 : ℤ) ^ j * a * PolyHill.intDetF fuel
      (rest.map fun r => r.eraseIdx j)) 0 row).sum)

/-- Exact integer determinant by first-row Laplace expansion;
`int(np.linalg.det(...))` truncates the float determinant, which is exact for
the small integer matrices the claims use. -/
def PolyHill.intDet (m : List (List ℤ)) : ℤ :=
  PolyHill.intDetF m.length m

/-- The minor of a matrix: delete row `i` and column `j`
(`np.delete(np.delete(matrix, i, 0), j, 1)`). -/
def PolyHill.minorM (m : List (List ℤ)) (i j : ℕ) : List (List ℤ) :=
  (m.eraseIdx i).map fun row => row.eraseIdx j

/-- The recursive `extended_gcd(a, b)` helper of `_mod_inverse`, returning
`(g, x, y)` with `g = gcd` and `a*x + b*y = g`.  The recursion replaces
`(a, b)` by `(b % a, a)`, so for the nonnegative arguments `_mod_inverse`
passes, the first argument strictly decreases; the fuel (one more than the
first argument) therefore never runs out. -/
def PolyHill.extended_gcd : ℕ → ℤ → ℤ → ℤ × ℤ × ℤ
  | 0, _, b => (b, 0, 1)
  | fuel + 1, a, b =>
    if a = 0 then (b, 0, 1)
    else
      let r := PolyHill.extended_gcd fuel (b % a) a
      (r.1, r.2.2 - (b / a) * r.2.1, r.2.1)

/-- Embedding of `_mod_inverse`: `gcd, x, _ = extended_gcd(a % m, m)`, raising
(`none`) when the gcd is not 1, otherwise returning `(x % m + m) % m`. -/
def PolyHill.mod_inverse (a m : ℤ) : Option ℤ :=
  let r := PolyHill.extended_gcd ((a % m).toNat + 1) (a % m) m
  if r.1 = 1 then some (((r.2.1) % m + m) % m) else none

/-- Embedding of `_matrix_inverse`: determinant mod `p`, its modular inverse,
then the adjugate-based inverse `adj[j][i] = (-1)^(i+j) * det(minor(i,j)) *
det_inv % p` (note the transposition: entry `(j, i)` of the result comes from
minor `(i, j)`). -/
def PolyHill.matrix_inverse (m : List (List ℤ)) (n : ℕ) (p : ℤ) :
    Option (List (List ℤ)) :=
  (PolyHill.mod_inverse ((PolyHill.intDet m) % p) p).map fun det_inv =>
    (List.range n).map fun j => (List.range n).map fun i =>
      ((((-1 : ℤ) ^ (i + j)) * PolyHill.intDet (PolyHill.minorM m i j) * det_inv) % p)

/-- Embedding of `set_keys`: install the coefficients and matrix, recomputing
the cached inverse matrix (and, implicitly, the lookup tables); fails where
`_matrix_inverse` raises. -/
def PolyHill.set_keys (c : PolyHill.PolyHillCipher) (polynomial_coeffs : List ℤ)
    (hill_matrix : List (List ℤ)) : Option PolyHill.PolyHillCipher :=
  (PolyHill.matrix_inverse hill_matrix c.n c.p).map fun inv =>
    { c with polynomial_coeffs := some polynomial_coeffs,
             hill_matrix := some hill_matrix,
             hill_matrix_inv := some inv }

/-- Embedding of `encrypt`: raises "Keys not generated" when
`polynomial_coeffs` or `hill_matrix` is `None`; otherwise encodes, pads, and
applies the three layers block by block (block index `i // n`). -/
def PolyHill.encrypt (c : PolyHill.PolyHillCipher) (plaintext : List Char) :
    Except String (List Char) :=
  match c.polynomial_coeffs, c.hill_matrix with
  | some coeffs, some m =>
    let numbers := PolyHill.pad_text c.n (PolyHill.text_to_numbers plaintext)
    .ok (PolyHill.numbers_to_text c.p
      ((Util.mapWithIdx (PolyHill.encryptBlock coeffs m c.p) 0
        (Util.toBlocks c.n numbers)).flatten))
  | _, _ => .error "Keys not generated. Call generate_key() first."

/-- Embedding of `decrypt`: raises "Keys not generated" when `hill_matrix_inv`
is `None`; otherwise applies the three inverse layers block by block and strips
the `'X'` padding.  (States with an inverse matrix but no coefficients cannot
arise: `generate_key` and `set_keys` always set both.) -/
def PolyHill.decrypt (c : PolyHill.PolyHillCipher) (ciphertext : List Char) :
    Except String (List Char) :=
  match c.hill_matrix_inv with
  | some mInv =>
    let coeffs := c.polynomial_coeffs.getD []
    .ok (PolyHill.rstripX (PolyHill.numbers_to_text c.p
      ((Util.mapWithIdx (PolyHill.decryptBlock coeffs mInv c.p) 0
        (Util.toBlocks c.n (PolyHill.text_to_numbers ciphertext))).flatten)))
  | none => .error "Keys not generated. Call generate_key() first."


/-! ## Utility lemmas -/

theorem Util.length_mapWithIdx (f : ℕ → α → β) (k : ℕ) (l : List α) :
    (Util.mapWithIdx f k l).length = l.length := by
  induction l generalizing k with
  | nil => rfl
  | cons x xs ih => simp [Util.mapWithIdx, ih]

theorem Util.mapWithIdx_comp (g : ℕ → β → γ) (f : ℕ → α → β) (k : ℕ) (l : List α) :
    Util.mapWithIdx g k (Util.mapWithIdx f k l)
      = Util.mapWithIdx (fun i a => g i (f i a)) k l := by
  induction l generalizing k with
  | nil => rfl
  | cons x xs ih => simp [Util.mapWithIdx, ih]

theorem Util.mapWithIdx_eq_self (f : ℕ → α → α) (k : ℕ) (l : List α)
    (h : ∀ q ∈ Util.mapWithIdx Prod.mk k l, f q.1 q.2 = q.2) :
    Util.mapWithIdx f k l = l := by
  induction l generalizing k with
  | nil => rfl
  | cons x xs ih =>
    simp only [Util.mapWithIdx] at h ⊢
    rw [h ⟨k, x⟩ (List.mem_cons_self _ _), ih]
    intro q hq
    exact h q (List.mem_cons_of_mem _ hq)

theorem Util.map_mapWithIdx (g : β → γ) (f : ℕ → α → β) (k : ℕ) (l : List α) :
    (Util.mapWithIdx f k l).map g = Util.mapWithIdx (fun i a => g (f i a)) k l := by
  induction l generalizing k with
  | nil => rfl
  | cons x xs ih => simp [Util.mapWithIdx, ih]

theorem Util.toBlocks_nil (n : ℕ) : Util.toBlocks n ([] : List α) = [] := rfl

theorem Util.toBlocksF_fuel (n : ℕ) :
    ∀ (fuel fuel' : ℕ) (l : List α), l.length ≤ fuel → l.length ≤ fuel' →
      Util.toBlocksF fuel (n + 1) l = Util.toBlocksF fuel' (n + 1) l := by
  intro fuel
  induction fuel with
  | zero =>
    intro fuel' l h h'
    match l with
    | [] => cases fuel' <;> rfl
  | succ f ih =>
    intro fuel' l h h'
    match l with
    | [] => cases fuel' <;> rfl
    | x :: xs =>
      match fuel' with
      | 0 => simp at h'
      | f' + 1 =>
        show ((x :: xs).take (n + 1)) :: Util.toBlocksF f (n + 1) ((x :: xs).drop (n + 1))
          = ((x :: xs).take (n + 1)) :: Util.toBlocksF f' (n + 1) ((x :: xs).drop (n + 1))
        congr 1
        exact ih f' _ (by simp at h ⊢; omega) (by simp at h' ⊢; omega)

theorem Util.toBlocks_cons (n : ℕ) (x : α) (xs : List α) :
    Util.toBlocks (n + 1) (x :: xs)
      = ((x :: xs).take (n + 1)) :: Util.toBlocks (n + 1) ((x :: xs).drop (n + 1)) := by
  show ((x :: xs).take (n + 1)) :: Util.toBlocksF xs.length (n + 1) ((x :: xs).drop (n + 1))
    = ((x :: xs).take (n + 1)) :: Util.toBlocks (n + 1) ((x :: xs).drop (n + 1))
  congr 1
  exact Util.toBlocksF_fuel n xs.length _ _ (by simp) (le_refl _)

theorem Util.flatten_toBlocks (n : ℕ) (hn : 0 < n) (l : List α) :
    (Util.toBlocks n l).flatten = l := by
  obtain ⟨m, rfl⟩ : ∃ m, n = m + 1 := ⟨n - 1, by omega⟩
  suffices h : ∀ (len : ℕ) (l : List α), l.length = len →
      (Util.toBlocks (m + 1) l).flatten = l from h _ l rfl
  intro len
  induction len using Nat.strong_induction_on with
  | _ len ih =>
    intro l hl
    match l with
    | [] => simp [Util.toBlocks_nil]
    | x :: xs =>
      subst hl
      rw [Util.toBlocks_cons, List.flatten_cons,
        ih ((x :: xs).drop (m + 1)).length (by simp; omega) _ rfl]
      exact List.take_append_drop _ _

theorem Util.toBlocks_append (n : ℕ) (b rest : List α) (hb : b.length = n) (hn : 0 < n) :
    Util.toBlocks n (b ++ rest) = b :: Util.toBlocks n rest := by
  obtain ⟨m, rfl⟩ : ∃ m, n = m + 1 := ⟨n - 1, by omega⟩
  match b, hb with
  | [], hb => simp at hb
  | y :: ys, hb =>
    rw [List.cons_append, Util.toBlocks_cons]
    congr 1
    · show List.take (m + 1) ((y :: ys) ++ rest) = y :: ys
      exact List.take_left' hb
    · show Util.toBlocks _ (List.drop (m + 1) ((y :: ys) ++ rest)) = _
      rw [List.drop_left' hb]

theorem Util.toBlocks_flatten (n : ℕ) (hn : 0 < n) (bs : List (List α))
    (h : ∀ b ∈ bs, b.length = n) : Util.toBlocks n bs.flatten = bs := by
  induction bs with
  | nil => simp [Util.toBlocks_nil]
  | cons b rest ih =>
    rw [List.flatten_cons, Util.toBlocks_append n b rest.flatten (h b (by simp)) hn,
      ih fun x hx => h x (List.mem_cons_of_mem _ hx)]

theorem Util.length_of_mem_toBlocks (n : ℕ) (l : List α) (hn : 0 < n)
    (hlen : l.length % n = 0) : ∀ b ∈ Util.toBlocks n l, b.length = n := by
  obtain ⟨m, rfl⟩ : ∃ m, n = m + 1 := ⟨n - 1, by omega⟩
  suffices h : ∀ (len : ℕ) (l : List α), l.length = len → l.length % (m + 1) = 0 →
      ∀ b ∈ Util.toBlocks (m + 1) l, b.length = m + 1 from h _ l rfl hlen
  intro len
  induction len using Nat.strong_induction_on with
  | _ len ih =>
    intro l hl hmod
    match l with
    | [] => intro b hb; rw [Util.toBlocks_nil] at hb; cases hb
    | x :: xs =>
      subst hl
      intro b hb
      have hge : m + 1 ≤ (x :: xs).length := by
        by_contra hlt
        rw [Nat.mod_eq_of_lt (by omega)] at hmod
        simp at hmod
      rw [Util.toBlocks_cons] at hb
      rcases List.mem_cons.mp hb with h | h
      · subst h
        simp only [List.length_take]
        omega
      · refine ih ((x :: xs).drop (m + 1)).length (by simp; omega) _ rfl ?_ b h
        have hdvd : (m + 1) ∣ ((x :: xs).length - (m + 1)) :=
          Nat.dvd_sub' (Nat.dvd_of_mod_eq_zero hmod) dvd_rfl
        simp only [List.length_drop]
        exact Nat.mod_eq_zero_of_dvd hdvd

theorem Util.mem_of_mem_toBlocks (n : ℕ) (l : List α) (b : List α) (x : α)
    (hn : 0 < n) (hb : b ∈ Util.toBlocks n l) (hx : x ∈ b) : x ∈ l := by
  rw [← Util.flatten_toBlocks n hn l]
  exact List.mem_flatten.mpr ⟨b, hb, hx⟩

/-- Claim C9: the login spot check accepts a click `(x, y)` iff both absolute
per-axis deltas from the stored point are at most `0.02`; a click exactly
`0.02` away on either axis is accepted, and one `0.0201` away on either axis
is rejected. -/
theorem C9_spot_tolerance :
    (∀ x y sx sy : ℚ, Stego.spot_within_tolerance x y sx sy 0.02 = true ↔
      |x - sx| ≤ 0.02 ∧ |y - sy| ≤ 0.02)
    ∧ (∀ sx sy d : ℚ, |d| = 0.02 →
        Stego.spot_within_tolerance (sx + d) sy sx sy 0.02 = true
        ∧ Stego.spot_within_tolerance sx (sy + d) sx sy 0.02 = true)
    ∧ (∀ sx sy d : ℚ, |d| = 0.0201 →
        Stego.spot_within_tolerance (sx + d) sy sx sy 0.02 = false
        ∧ Stego.spot_within_tolerance sx (sy + d) sx sy 0.02 = false) := by
  refine ⟨fun x y sx sy => ?_, fun sx sy d hd => ?_, fun sx sy d hd => ?_⟩
  · simp [Stego.spot_within_tolerance]
  · constructor <;>
      · simp [Stego.spot_within_tolerance, add_sub_cancel_left, hd]
        norm_num
  · constructor <;>
      · simp [Stego.spot_within_tolerance, add_sub_cancel_left, hd]
        norm_num

/-- Witness for C9 at the concrete stored point `(0.3, 0.5)`. -/
theorem C9_spot_tolerance_witness :
    Stego.spot_within_tolerance (0.3 + 0.02) 0.5 0.3 0.5 0.02 = true
    ∧ Stego.spot_within_tolerance 0.3 (0.5 + 0.0201) 0.3 0.5 0.02 = false :=
  ⟨(C9_spot_tolerance.2.1 0.3 0.5 0.02 (by norm_num)).1,
   (C9_spot_tolerance.2.2 0.3 0.5 0.0201 (by norm_num)).2⟩

/-- Claim C8: on a freshly constructed `PolyHillCipher` (no `generate_key` or
`set_keys` call), both `encrypt` and `decrypt` raise the "Keys not generated"
error and produce no result. -/
theorem C8_keys_not_generated (block_size : ℕ) (modulus : ℤ)
    (plaintext ciphertext : List Char) :
    PolyHill.encrypt (PolyHill.init block_size modulus) plaintext
      = .error "Keys not generated. Call generate_key() first."
    ∧ PolyHill.decrypt (PolyHill.init block_size modulus) ciphertext
      = .error "Keys not generated. Call generate_key() first." :=
  ⟨rfl, rfl⟩

/-- Claim C6: the worked example.  With block size 2, modulus 26, polynomial
`P(x) = 1 + 2x` and Hill matrix `[[3, 2], [1, 1]]` installed via `set_keys`,
encrypting `"HI"` encodes `H = 7, I = 8`, produces intermediate polynomial
values `[15, 17]`, Hill output `[1, 6]` mod 26, obfuscated block `[1, 7]`, and
the ciphertext `"BH"`. -/
theorem C6_worked_example :
    PolyHill.text_to_numbers ['H', 'I'] = [7, 8]
    ∧ [7, 8].map (PolyHill.polynomial_transform [1, 2] 26) = [15, 17]
    ∧ PolyHill.matVec [[3, 2], [1, 1]] 26 [15, 17] = [1, 6]
    ∧ PolyHill.obfuscateBlock 26 0 [1, 6] = [1, 7]
    ∧ PolyHill.numbers_to_text 26 [1, 7] = ['B', 'H']
    ∧ (PolyHill.set_keys (PolyHill.init 2 26) [1, 2] [[3, 2], [1, 1]]).map
        (fun c => PolyHill.encrypt c ['H', 'I'])
      = some (.ok ['B', 'H']) :=
  ⟨rfl, rfl, rfl, rfl, rfl, rfl⟩

theorem CrackTime.formatUnits_le_two (us : List (ℕ × String)) (r : ℕ) (parts : List String)
    (h : parts.length ≤ 1) : (CrackTime.formatUnits us r parts).length ≤ 2 := by
  induction us generalizing r parts with
  | nil =>
    simp only [CrackTime.formatUnits]
    omega
  | cons u rest ih =>
    obtain ⟨usec, name⟩ := u
    simp only [CrackTime.formatUnits]
    by_cases hc : usec ≤ r
    · simp only [if_pos hc]
      by_cases h2 : 2 ≤ (parts ++ [CrackTime.part (r / usec) name]).length
      · simp only [if_pos h2]
        simp only [List.length_append, List.length_singleton]
        omega
      · simp only [if_neg h2]
        apply ih
        simp only [List.length_append, List.length_singleton] at h2 ⊢
        omega
    · simp only [if_neg hc]
      by_cases h2 : 2 ≤ parts.length
      · simp only [if_pos h2]
        omega
      · simp only [if_neg h2]
        exact ih _ _ h

/-- Claim C7: `format_seconds` returns `"< 1s"` for every value under one
second, emits at most two units, and on the boundary examples gives
`format_seconds(0.5) = "< 1s"`, `format_seconds(90) = "1 minute, 30 seconds"`,
`format_seconds(90000) = "1 day, 1 hour"`. -/
theorem C7_format_seconds :
    (∀ s : ℚ, s < 1 → CrackTime.format_seconds s = "< 1s")
    ∧ CrackTime.format_seconds (1 / 2) = "< 1s"
    ∧ CrackTime.format_seconds 90 = "1 minute, 30 seconds"
    ∧ CrackTime.format_seconds 90000 = "1 day, 1 hour"
    ∧ (∀ s : ℚ, (CrackTime.formatUnits CrackTime.units s.floor.toNat []).length ≤ 2) := by
  have hsub : ∀ s : ℚ, s < 1 → CrackTime.format_seconds s = "< 1s" := by
    intro s hs
    unfold CrackTime.format_seconds
    rw [if_pos hs]
  refine ⟨hsub, hsub _ (by norm_num), by decide, by decide, fun s => ?_⟩
  exact CrackTime.formatUnits_le_two _ _ _ (by simp)

/-- Witness for C7: the sub-second branch instantiated at `0.5` and the
at-most-two-units bound at `90000` seconds. -/
theorem C7_format_seconds_witness :
    CrackTime.format_seconds (1 / 2) = "< 1s"
    ∧ (CrackTime.formatUnits CrackTime.units (90000 : ℚ).floor.toNat []).length ≤ 2 :=
  ⟨C7_format_seconds.1 (1 / 2) (by norm_num), C7_format_seconds.2.2.2.2 90000⟩

/-- Counterexample to claim C2: the symbol class of `estimate_entropy_bits`
has 33 characters (a space plus 32 punctuation characters), not 32, so the
all-four-classes password `"aA0!"` has charset size 95 and entropy
`4 * log2 95`, not `4 * log2 94`. -/
theorem C2_entropy_counterexample :
    CrackTime.charset_size ['a', 'A', '0', '!'] = 95
    ∧ CrackTime.estimate_entropy_bits ['a', 'A', '0', '!'] ≠ 4 * Real.logb 2 94 := by
  have hcs : CrackTime.charset_size ['a', 'A', '0', '!'] = 95 := by decide
  refine ⟨hcs, ?_⟩
  rw [CrackTime.estimate_entropy_bits, if_neg (by simp), hcs]
  have hlt : Real.logb 2 94 < Real.logb 2 95 :=
    Real.logb_lt_logb (by norm_num) (by norm_num) (by norm_num)
  simp only [List.length_cons, List.length_nil]
  push_cast
  intro h
  norm_num at h
  linarith

/-- Claim C2 (amended): for every non-empty password containing at least one
character of each of the four classes, the charset size is
`26 + 26 + 10 + 33 = 95` and `estimate_entropy_bits` returns
`length * log2 95`. -/
theorem C2_entropy_all_classes (password : List Char)
    (hne : password ≠ [])
    (hl : ∃ c ∈ password, 'a' ≤ c ∧ c ≤ 'z')
    (hu : ∃ c ∈ password, 'A' ≤ c ∧ c ≤ 'Z')
    (hd : ∃ c ∈ password, '0' ≤ c ∧ c ≤ '9')
    (hs : ∃ c ∈ password, c ∈ CrackTime.specials) :
    CrackTime.charset_size password = 95
    ∧ CrackTime.estimate_entropy_bits password
      = (password.length : ℝ) * Real.logb 2 95 := by
  have hcs : CrackTime.charset_size password = 95 := by
    rw [CrackTime.charset_size]
    have h1 : password.any (fun c => 'a' ≤ c && c ≤ 'z') = true := by
      rw [List.any_eq_true]
      obtain ⟨c, hc, h1, h2⟩ := hl
      exact ⟨c, hc, by simp [h1, h2]⟩
    have h2 : password.any (fun c => 'A' ≤ c && c ≤ 'Z') = true := by
      rw [List.any_eq_true]
      obtain ⟨c, hc, h1, h2⟩ := hu
      exact ⟨c, hc, by simp [h1, h2]⟩
    have h3 : password.any (fun c => '0' ≤ c && c ≤ '9') = true := by
      rw [List.any_eq_true]
      obtain ⟨c, hc, h1, h2⟩ := hd
      exact ⟨c, hc, by simp [h1, h2]⟩
    have h4 : password.any (fun c => CrackTime.specials.contains c) = true := by
      rw [List.any_eq_true]
      obtain ⟨c, hc, h1⟩ := hs
      exact ⟨c, hc, by simpa using h1⟩
    rw [h1, h2, h3, h4]
    rfl
  refine ⟨hcs, ?_⟩
  rw [CrackTime.estimate_entropy_bits, if_neg hne, hcs]
  norm_num

/-- Witness for C2 at the concrete password `"aA0!"`. -/
theorem C2_entropy_all_classes_witness :
    CrackTime.charset_size ['a', 'A', '0', '!'] = 95
    ∧ CrackTime.estimate_entropy_bits ['a', 'A', '0', '!'] = 4 * Real.logb 2 95 := by
  have h := C2_entropy_all_classes ['a', 'A', '0', '!'] (by simp)
    ⟨'a', by simp, by decide, by decide⟩ ⟨'A', by simp, by decide, by decide⟩
    ⟨'0', by simp, by decide, by decide⟩ ⟨'!', by simp, by decide⟩
  refine ⟨h.1, ?_⟩
  rw [h.2]
  norm_num

theorem DH.pyMod_congr {x y p : ℤ} (h : x % p = y % p) : DH.pyMod x p = DH.pyMod y p := by
  unfold DH.pyMod
  rw [show x % p = y % p from h]

theorem DH.pyMod_modEq (x p : ℤ) : DH.pyMod x p ≡ x [ZMOD p] := by
  unfold DH.pyMod
  split
  · show (x % p + p) % p = x % p
    have h : x % p + p = x % p + p * 1 := by ring
    rw [h, Int.add_mul_emod_self_left]
    exact Int.emod_emod_of_dvd x dvd_rfl
  · exact Int.emod_emod_of_dvd x dvd_rfl

theorem DH.pow_eq (g e p : ℤ) (hp : p ≠ 0) (he : 0 ≤ e) :
    DH.pow g e p = some (DH.pyMod (g ^ e.toNat) p) := by
  rw [DH.pow, if_neg hp, if_pos he]

theorem DH.shared_of_public (g x y p : ℤ) (hp : p ≠ 0) (hy : 0 ≤ y) :
    DH.compute_shared_secret (DH.pyMod (g ^ x.toNat) p) y p
      = some (DH.pyMod (g ^ (x.toNat * y.toNat)) p) := by
  rw [DH.compute_shared_secret, DH.pow_eq _ _ _ hp hy]
  congr 1
  apply DH.pyMod_congr
  have h1 : (DH.pyMod (g ^ x.toNat) p) ^ y.toNat ≡ (g ^ x.toNat) ^ y.toNat [ZMOD p] :=
    (DH.pyMod_modEq (g ^ x.toNat) p).pow y.toNat
  rw [← pow_mul] at h1
  exact h1

/-- Counterexample to claim C4: not every nonzero choice of inputs works.  For
`p = 8, g = 2, a = 1, b = -1`, Python's `pow(2, -1, 8)` raises `ValueError`
(2 is not invertible mod 8), so the composed shared-secret expression is
undefined and the `/api/compute` handler crashes (HTTP 500) instead of
returning `match: true`. -/
theorem C4_dh_counterexample :
    DH.compute_public_key 2 (-1) 8 = none
    ∧ (DH.compute_public_key 2 1 8).bind (fun A => DH.compute_shared_secret A (-1) 8) = none
    ∧ DH.api_compute 8 2 1 (-1) = .error 500 :=
  ⟨rfl, rfl, rfl⟩

/-- Claim C4 (amended): for all nonzero integers `p, g` and positive private
exponents `a, b`, both composition orders of public-key and shared-secret
computation succeed and agree, both equalling `g^(a*b) mod p`; the
`/api/compute` handler returns `match: true` on every such input. -/
theorem C4_dh_agreement (p g a b : ℤ) (hp : p ≠ 0) (hg : g ≠ 0)
    (ha : 1 ≤ a) (hb : 1 ≤ b) :
    (DH.compute_public_key g a p).bind (fun A => DH.compute_shared_secret A b p)
      = some (DH.pyMod (g ^ (a * b).toNat) p)
    ∧ (DH.compute_public_key g b p).bind (fun B => DH.compute_shared_secret B a p)
      = some (DH.pyMod (g ^ (a * b).toNat) p)
    ∧ DH.api_compute p g a b
      = .ok ⟨DH.pyMod (g ^ a.toNat) p, DH.pyMod (g ^ b.toNat) p,
          DH.pyMod (g ^ (a * b).toNat) p, DH.pyMod (g ^ (a * b).toNat) p, true⟩ := by
  have h0a : (0 : ℤ) ≤ a := by omega
  have h0b : (0 : ℤ) ≤ b := by omega
  have hab : (a * b).toNat = a.toNat * b.toNat := by
    have h : ((a * b).toNat : ℤ) = ((a.toNat * b.toNat : ℕ) : ℤ) := by
      push_cast
      rw [Int.toNat_of_nonneg h0a, Int.toNat_of_nonneg h0b,
        Int.toNat_of_nonneg (mul_nonneg h0a h0b)]
    exact_mod_cast h
  have hA : DH.compute_public_key g a p = some (DH.pyMod (g ^ a.toNat) p) :=
    DH.pow_eq g a p hp h0a
  have hB : DH.compute_public_key g b p = some (DH.pyMod (g ^ b.toNat) p) :=
    DH.pow_eq g b p hp h0b
  have hs1 : DH.compute_shared_secret (DH.pyMod (g ^ b.toNat) p) a p
      = some (DH.pyMod (g ^ (a * b).toNat) p) := by
    rw [DH.shared_of_public g b a p hp h0a, hab, Nat.mul_comm]
  have hs2 : DH.compute_shared_secret (DH.pyMod (g ^ a.toNat) p) b p
      = some (DH.pyMod (g ^ (a * b).toNat) p) := by
    rw [DH.shared_of_public g a b p hp h0b, hab]
  refine ⟨?_, ?_, ?_⟩
  · rw [hA]
    exact hs2
  · rw [hB]
    exact hs1
  · rw [DH.api_compute, if_neg (by push_neg; exact ⟨hp, hg, by omega, by omega⟩)]
    simp only [hA, hB, hs1, hs2]
    simp

/-- Witness for C4 at `p = 23, g = 5, a = 6, b = 15`. -/
theorem C4_dh_agreement_witness :
    (DH.compute_public_key 5 6 23).bind (fun A => DH.compute_shared_secret A 15 23)
      = some (DH.pyMod (5 ^ (6 * 15 : ℤ).toNat) 23)
    ∧ DH.api_compute 23 5 6 15
      = .ok ⟨DH.pyMod (5 ^ (6 : ℤ).toNat) 23, DH.pyMod (5 ^ (15 : ℤ).toNat) 23,
          DH.pyMod (5 ^ (6 * 15 : ℤ).toNat) 23, DH.pyMod (5 ^ (6 * 15 : ℤ).toNat) 23, true⟩ :=
  ⟨(C4_dh_agreement 23 5 6 15 (by norm_num) (by norm_num) (by norm_num) (by norm_num)).1,
   (C4_dh_agreement 23 5 6 15 (by norm_num) (by norm_num) (by norm_num) (by norm_num)).2.2⟩

theorem Util.mapWithIdx_append (f : ℕ → α → β) (k : ℕ) (l1 l2 : List α) :
    Util.mapWithIdx f k (l1 ++ l2)
      = Util.mapWithIdx f k l1 ++ Util.mapWithIdx f (k + l1.length) l2 := by
  induction l1 generalizing k with
  | nil => simp [Util.mapWithIdx]
  | cons x xs ih =>
    show f k x :: Util.mapWithIdx f (k + 1) (xs ++ l2)
      = (f k x :: Util.mapWithIdx f (k + 1) xs) ++ Util.mapWithIdx f (k + (xs.length + 1)) l2
    rw [List.cons_append, ih (k + 1), show k + 1 + xs.length = k + (xs.length + 1) by omega]

theorem Util.mapWithIdx_id (k : ℕ) (l : List α) :
    Util.mapWithIdx (fun _ a => a) k l = l := by
  induction l generalizing k with
  | nil => rfl
  | cons x xs ih => simp [Util.mapWithIdx, ih]

theorem Util.map_snd_mapWithIdx (k : ℕ) (l : List α) :
    (Util.mapWithIdx Prod.mk k l).map Prod.snd = l := by
  rw [Util.map_mapWithIdx]
  exact Util.mapWithIdx_id k l

theorem Util.map_getD_range (l : List α) (d : α) :
    (List.range l.length).map (fun i => l.getD i d) = l := by
  induction l with
  | nil => rfl
  | cons x xs ih =>
    rw [List.length_cons, List.range_succ_eq_map, List.map_cons, List.map_map]
    have hc : ((fun i => (x :: xs).getD i d) ∘ Nat.succ) = fun i => xs.getD i d := by
      funext i
      simp [List.getD_cons_succ]
    rw [List.getD_cons_zero, hc, ih]

theorem Babel.perm_deterministic (digest : ℕ → List ℕ) (n : ℕ) :
    (Babel.deterministic_permutation digest n).Perm (List.range n) := by
  unfold Babel.deterministic_permutation
  have h := (List.perm_insertionSort
    (fun s t : List ℕ × ℕ => Babel.bytesLe s.1 t.1 = true)
    ((List.range n).map fun i => (digest i, i))).map Prod.snd
  have hmap : (List.range n).map (Prod.snd ∘ fun i : ℕ => (digest i, i)) = List.range n := by
    rw [show (Prod.snd ∘ fun i : ℕ => (digest i, i)) = id from funext fun i => rfl, List.map_id]
  rw [List.map_map, hmap] at h
  exact h

theorem Babel.foldl_set_length (pairs : List (ℕ × ℕ)) (acc : List ℕ) :
    (pairs.foldl (fun acc q => acc.set q.2 q.1) acc).length = acc.length := by
  induction pairs generalizing acc with
  | nil => rfl
  | cons q rest ih => simp [List.foldl_cons, ih]

theorem Babel.foldl_set_getD_not_mem (pairs : List (ℕ × ℕ)) (acc : List ℕ) (k : ℕ)
    (h : k ∉ pairs.map Prod.snd) :
    (pairs.foldl (fun acc q => acc.set q.2 q.1) acc).getD k 0 = acc.getD k 0 := by
  induction pairs generalizing acc with
  | nil => rfl
  | cons q rest ih =>
    simp only [List.map_cons, List.mem_cons, not_or] at h
    rw [List.foldl_cons, ih _ h.2]
    rcases Nat.lt_or_ge k acc.length with hk | hk
    · rw [List.getD_eq_getElem _ _ (by simpa using hk), List.getD_eq_getElem _ _ hk]
      rw [List.getElem_set_ne (by exact fun hh => h.1 (by omega))]
    · rw [List.getD_eq_default _ _ (by simpa using hk), List.getD_eq_default _ _ hk]

theorem Babel.invArray_getD (n : ℕ) (perm : List ℕ) (hperm : perm.Perm (List.range n))
    (k : ℕ) (hk : k < n) :
    (Babel.invArray n perm).getD k 0 < perm.length
    ∧ perm.getD ((Babel.invArray n perm).getD k 0) 0 = k := by
  have hmem : k ∈ perm := hperm.mem_iff.mpr (List.mem_range.mpr hk)
  have hnd : perm.Nodup := hperm.nodup_iff.mpr (List.nodup_range n)
  obtain ⟨l1, l2, hsp⟩ := List.append_of_mem hmem
  have hknot : k ∉ l2 := by
    have h2 : (k :: l2).Nodup := (List.sublist_append_right l1 (k :: l2)).nodup (hsp ▸ hnd)
    exact (List.nodup_cons.mp h2).1
  have hgetD : (Babel.invArray n perm).getD k 0 = l1.length := by
    rw [Babel.invArray, hsp, Util.mapWithIdx_append, List.foldl_append]
    show ((Util.mapWithIdx Prod.mk (0 + l1.length) (k :: l2)).foldl
      (fun acc q => acc.set q.2 q.1)
      ((Util.mapWithIdx Prod.mk 0 l1).foldl (fun acc q => acc.set q.2 q.1)
        (List.replicate n 0))).getD k 0 = l1.length
    rw [show Util.mapWithIdx Prod.mk (0 + l1.length) (k :: l2)
        = (l1.length, k) :: Util.mapWithIdx Prod.mk (l1.length + 1) l2 by
      simp [Util.mapWithIdx]]
    rw [List.foldl_cons,
      Babel.foldl_set_getD_not_mem _ _ _ (by rwa [Util.map_snd_mapWithIdx])]
    have hlen : k < ((Util.mapWithIdx Prod.mk 0 l1).foldl
        (fun acc q => acc.set q.2 q.1) (List.replicate n 0)).length := by
      rw [Babel.foldl_set_length, List.length_replicate]
      exact hk
    rw [List.getD_eq_getElem _ _ (by simpa using hlen)]
    exact List.getElem_set_self _
  have hl1 : l1.length < perm.length := by
    rw [hsp]
    simp
  refine ⟨by rw [hgetD]; exact hl1, ?_⟩
  rw [hgetD, List.getD_eq_getElem _ _ hl1]
  subst hsp
  rw [List.getElem_append_right (le_refl l1.length)]
  simp

theorem Babel.flatten_length_mod (bs : List (List ℕ)) (h : ∀ b ∈ bs, b.length = 16) :
    bs.flatten.length % 16 = 0 := by
  induction bs with
  | nil => rfl
  | cons b rest ih =>
    rw [List.flatten_cons, List.length_append, h b (by simp)]
    have := ih fun x hx => h x (List.mem_cons_of_mem _ hx)
    omega

theorem Babel.mem_of_mem_map_getD (blocks : List (List ℕ)) (perm : List ℕ)
    (hperm : perm.Perm (List.range blocks.length)) (b : List ℕ)
    (hb : b ∈ perm.map fun i => blocks.getD i []) : b ∈ blocks := by
  obtain ⟨i, hi, rfl⟩ := List.mem_map.mp hb
  have hilt : i < blocks.length := List.mem_range.mp (hperm.mem_iff.mp hi)
  rw [List.getD_eq_getElem _ _ hilt]
  exact List.getElem_mem _

/-- Claim C10 (implicit): `_deterministic_permutation` always returns a
permutation of `{0, ..., n-1}` (for every digest assignment, i.e. every key
and IV), and consequently `obfuscate_ciphertext_blocks` outputs a
rearrangement of the input blocks with no block lost or duplicated. -/
theorem C10_deterministic_permutation :
    (∀ (digest : ℕ → List ℕ) (n : ℕ),
      (Babel.deterministic_permutation digest n).Perm (List.range n))
    ∧ ∀ (digest : ℕ → List ℕ) (ct : List ℕ), ct.length % 16 = 0 →
      ∃ permuted perm,
        Babel.obfuscate_ciphertext_blocks digest ct = some (permuted, perm)
        ∧ (Util.toBlocks 16 permuted).Perm (Util.toBlocks 16 ct) := by
  refine ⟨Babel.perm_deterministic, fun digest ct hmod => ?_⟩
  set blocks := Util.toBlocks 16 ct with hblocks
  have hlen : ∀ b ∈ blocks, b.length = 16 :=
    Util.length_of_mem_toBlocks 16 ct (by norm_num) hmod
  set perm := Babel.deterministic_permutation digest blocks.length with hperm
  have hp : perm.Perm (List.range blocks.length) := Babel.perm_deterministic _ _
  refine ⟨(perm.map fun i => blocks.getD i []).flatten, perm, ?_, ?_⟩
  · rw [Babel.obfuscate_ciphertext_blocks, Babel.split_blocks, if_pos hmod]
    rfl
  · have hto : Util.toBlocks 16 ((perm.map fun i => blocks.getD i []).flatten)
        = perm.map fun i => blocks.getD i [] :=
      Util.toBlocks_flatten 16 (by norm_num) _ fun b hb =>
        hlen b (Babel.mem_of_mem_map_getD blocks perm hp b hb)
    rw [hto]
    have h2 := hp.map fun i => blocks.getD i []
    rwa [Util.map_getD_range blocks []] at h2

/-- Claim C5: for every digest assignment (i.e. every key and 16-byte IV) and
every ciphertext whose length is a multiple of 16 bytes, de-obfuscating the
obfuscated blocks with the returned permutation restores the original
ciphertext exactly. -/
theorem C5_obfuscation_roundtrip (digest : ℕ → List ℕ) (ct : List ℕ)
    (hmod : ct.length % 16 = 0) :
    (Babel.obfuscate_ciphertext_blocks digest ct).bind
      (fun pr => Babel.deobfuscate_ciphertext_blocks pr.1 pr.2) = some ct := by
  set blocks := Util.toBlocks 16 ct with hblocks
  have hlen : ∀ b ∈ blocks, b.length = 16 :=
    Util.length_of_mem_toBlocks 16 ct (by norm_num) hmod
  set perm := Babel.deterministic_permutation digest blocks.length with hpermdef
  have hp : perm.Perm (List.range blocks.length) := Babel.perm_deterministic _ _
  have hpl : perm.length = blocks.length := hp.length_eq.trans (List.length_range _)
  have hobf : Babel.obfuscate_ciphertext_blocks digest ct
      = some ((perm.map fun i => blocks.getD i []).flatten, perm) := by
    rw [Babel.obfuscate_ciphertext_blocks, Babel.split_blocks, if_pos hmod]
    rfl
  rw [hobf]
  show Babel.deobfuscate_ciphertext_blocks
    ((perm.map fun i => blocks.getD i []).flatten) perm = some ct
  have hmem : ∀ b ∈ perm.map fun i => blocks.getD i [], b.length = 16 := fun b hb =>
    hlen b (Babel.mem_of_mem_map_getD blocks perm hp b hb)
  have hto : Util.toBlocks 16 ((perm.map fun i => blocks.getD i []).flatten)
      = perm.map fun i => blocks.getD i [] :=
    Util.toBlocks_flatten 16 (by norm_num) _ hmem
  rw [Babel.deobfuscate_ciphertext_blocks, Babel.split_blocks,
    if_pos (Babel.flatten_length_mod _ hmem), hto]
  show (if (perm.map fun i => blocks.getD i []).length = perm.length then _ else none) = _
  rw [if_pos (List.length_map _ _)]
  have hn : (perm.map fun i => blocks.getD i []).length = blocks.length := by
    rw [List.length_map, hpl]
  rw [hn]
  have hpoint : ∀ k ∈ List.range blocks.length,
      (perm.map fun i => blocks.getD i []).getD
        ((Babel.invArray blocks.length perm).getD k 0) [] = blocks.getD k [] := by
    intro k hk
    have hklt : k < blocks.length := List.mem_range.mp hk
    obtain ⟨hjlt, hjval⟩ := Babel.invArray_getD blocks.length perm hp k hklt
    set j := (Babel.invArray blocks.length perm).getD k 0 with hj
    rw [List.getD_eq_getElem _ _ (by rw [List.length_map]; exact hjlt)]
    rw [List.getElem_map]
    rw [List.getD_eq_getElem _ _ hjlt] at hjval
    rw [hjval]
  rw [List.map_congr_left hpoint, Util.map_getD_range blocks []]
  rw [Babel.join_blocks, hblocks, Util.flatten_toBlocks 16 (by norm_num) ct]

/-- Witness for C10: a 32-byte ciphertext (2 blocks) under the digest
`i ↦ [i]`. -/
theorem C10_deterministic_permutation_witness :
    (List.range 32).length % 16 = 0
    ∧ ∃ permuted perm,
        Babel.obfuscate_ciphertext_blocks (fun i => [i]) (List.range 32)
          = some (permuted, perm)
        ∧ (Util.toBlocks 16 permuted).Perm (Util.toBlocks 16 (List.range 32)) :=
  ⟨by decide,
   C10_deterministic_permutation.2 (fun i => [i]) (List.range 32) (by decide)⟩

/-- Witness for C5: the same 32-byte ciphertext round-trips. -/
theorem C5_obfuscation_roundtrip_witness :
    (List.range 32).length % 16 = 0
    ∧ (Babel.obfuscate_ciphertext_blocks (fun i => [i]) (List.range 32)).bind
        (fun pr => Babel.deobfuscate_ciphertext_blocks pr.1 pr.2)
      = some (List.range 32) :=
  ⟨by decide, C5_obfuscation_roundtrip (fun i => [i]) (List.range 32) (by decide)⟩

/-! ## Character lemmas (ASCII fragment) -/

theorem Util.char_le_iff (c d : Char) : c ≤ d ↔ c.toNat ≤ d.toNat := by
  rw [Char.le_def]
  rfl

theorem Util.toNat_ofNat (n : ℕ) (h : n < 55296) : (Char.ofNat n).toNat = n := by
  unfold Char.ofNat
  rw [dif_pos (Or.inl h)]
  rfl

theorem Util.char_eq_of_toNat {c d : Char} (h : c.toNat = d.toNat) : c = d := by
  rw [← Char.ofNat_toNat c, ← Char.ofNat_toNat d, h]

theorem Util.isUpper_iff (c : Char) : c.isUpper = true ↔ 65 ≤ c.toNat ∧ c.toNat ≤ 90 := by
  simp only [Char.isUpper, decide_eq_true_eq, Bool.and_eq_true, ge_iff_le]
  exact Iff.rfl

theorem Util.isLower_iff (c : Char) : c.isLower = true ↔ 97 ≤ c.toNat ∧ c.toNat ≤ 122 := by
  simp only [Char.isLower, decide_eq_true_eq, Bool.and_eq_true, ge_iff_le]
  exact Iff.rfl

theorem Util.isAlpha_iff (c : Char) :
    c.isAlpha = true
      ↔ (65 ≤ c.toNat ∧ c.toNat ≤ 90) ∨ (97 ≤ c.toNat ∧ c.toNat ≤ 122) := by
  simp only [Char.isAlpha, Bool.or_eq_true, Util.isUpper_iff, Util.isLower_iff]

theorem Util.toUpper_of_upper (c : Char) (h : 65 ≤ c.toNat ∧ c.toNat ≤ 90) :
    c.toUpper = c := by
  unfold Char.toUpper
  rw [if_neg (by omega)]

theorem Util.toUpper_of_lower (c : Char) (h : 97 ≤ c.toNat ∧ c.toNat ≤ 122) :
    c.toUpper = Char.ofNat (c.toNat - 32) := by
  unfold Char.toUpper
  rw [if_pos (by omega)]

/-! ## Caesar+Hill lemmas -/

theorem CaesarHill.upperChar_of_upper (c : Char) (h : 65 ≤ c.toNat ∧ c.toNat ≤ 90) :
    CaesarHill.upperChar c = c := by
  unfold CaesarHill.upperChar
  rw [if_neg]
  intro hc
  rw [Util.char_le_iff] at hc
  have h97 : ('a').toNat = 97 := rfl
  omega

theorem CaesarHill.upperChar_toNat (c : Char)
    (h : (65 ≤ c.toNat ∧ c.toNat ≤ 90) ∨ (97 ≤ c.toNat ∧ c.toNat ≤ 122)) :
    65 ≤ (CaesarHill.upperChar c).toNat ∧ (CaesarHill.upperChar c).toNat ≤ 90 := by
  unfold CaesarHill.upperChar
  by_cases hl : 'a' ≤ c ∧ c ≤ 'z'
  · rw [if_pos hl]
    rw [Util.char_le_iff, Util.char_le_iff] at hl
    have h97 : ('a').toNat = 97 := rfl
    have h122 : ('z').toNat = 122 := rfl
    rw [Util.toNat_ofNat _ (by omega)]
    omega
  · rw [if_neg hl]
    rw [Util.char_le_iff, Util.char_le_iff] at hl
    have h97 : ('a').toNat = 97 := rfl
    have h122 : ('z').toNat = 122 := rfl
    omega

theorem CaesarHill.shiftChar_toNat (shift : ℤ) (c : Char)
    (h : (65 ≤ c.toNat ∧ c.toNat ≤ 90) ∨ (97 ≤ c.toNat ∧ c.toNat ≤ 122)) :
    ((CaesarHill.shiftChar shift c).toNat : ℤ)
      = (((CaesarHill.upperChar c).toNat : ℤ) - 65 + shift) % 26 + 65 := by
  have hu := CaesarHill.upperChar_toNat c h
  rw [CaesarHill.shiftChar, if_pos (by rw [Util.isAlpha_iff]; exact Or.inl hu)]
  have hm : (0 : ℤ) ≤ (((CaesarHill.upperChar c).toNat : ℤ) - 65 + shift) % 26
      ∧ (((CaesarHill.upperChar c).toNat : ℤ) - 65 + shift) % 26 < 26 :=
    ⟨Int.emod_nonneg _ (by norm_num), Int.emod_lt_of_pos _ (by norm_num)⟩
  rw [Util.toNat_ofNat _ (by omega)]
  omega

theorem CaesarHill.shiftChar_upper (shift : ℤ) (c : Char)
    (h : (65 ≤ c.toNat ∧ c.toNat ≤ 90) ∨ (97 ≤ c.toNat ∧ c.toNat ≤ 122)) :
    65 ≤ (CaesarHill.shiftChar shift c).toNat
      ∧ (CaesarHill.shiftChar shift c).toNat ≤ 90 := by
  have ht := CaesarHill.shiftChar_toNat shift c h
  have hm : (0 : ℤ) ≤ (((CaesarHill.upperChar c).toNat : ℤ) - 65 + shift) % 26
      ∧ (((CaesarHill.upperChar c).toNat : ℤ) - 65 + shift) % 26 < 26 :=
    ⟨Int.emod_nonneg _ (by norm_num), Int.emod_lt_of_pos _ (by norm_num)⟩
  omega

theorem CaesarHill.shiftChar_inverse (shift : ℤ) (c : Char)
    (h : (65 ≤ c.toNat ∧ c.toNat ≤ 90) ∨ (97 ≤ c.toNat ∧ c.toNat ≤ 122)) :
    CaesarHill.shiftChar (-shift) (CaesarHill.shiftChar shift c)
      = CaesarHill.upperChar c := by
  have hu := CaesarHill.upperChar_toNat c h
  have he := CaesarHill.shiftChar_upper shift c h
  have ht := CaesarHill.shiftChar_toNat shift c h
  have ht2 := CaesarHill.shiftChar_toNat (-shift) (CaesarHill.shiftChar shift c) (Or.inl he)
  rw [CaesarHill.upperChar_of_upper _ he] at ht2
  apply Util.char_eq_of_toNat
  have hthis : ((CaesarHill.shiftChar (-shift) (CaesarHill.shiftChar shift c)).toNat : ℤ)
      = ((CaesarHill.upperChar c).toNat : ℤ) := by
    rw [ht2, ht]
    have hstep : ((((CaesarHill.upperChar c).toNat : ℤ) - 65 + shift) % 26 + 65 - 65
          + -shift) % 26
        = ((((CaesarHill.upperChar c).toNat : ℤ) - 65 + shift) % 26 - shift) % 26 := by
      congr 1
      ring
    rw [hstep, Int.sub_emod, Int.emod_emod_of_dvd _ dvd_rfl, ← Int.sub_emod]
    have harg : (((CaesarHill.upperChar c).toNat : ℤ) - 65 + shift) - shift
        = ((CaesarHill.upperChar c).toNat : ℤ) - 65 := by ring
    rw [harg, Int.emod_eq_of_lt (by omega) (by omega)]
    omega
  exact_mod_cast hthis

theorem CaesarHill.caesar_roundtrip (msg : List Char) (shift : ℤ)
    (halpha : ∀ c ∈ msg, (65 ≤ c.toNat ∧ c.toNat ≤ 90) ∨ (97 ≤ c.toNat ∧ c.toNat ≤ 122)) :
    CaesarHill.caesar_decrypt (CaesarHill.caesar_encrypt msg shift) shift
      = msg.map CaesarHill.upperChar := by
  rw [CaesarHill.caesar_decrypt, CaesarHill.caesar_encrypt, CaesarHill.caesar_encrypt,
    List.map_map]
  apply List.map_congr_left
  intro a ha
  exact CaesarHill.shiftChar_inverse shift a (halpha a ha)

theorem CaesarHill.matVec_range (m : List (List ℤ)) (v : List ℤ) :
    ∀ x ∈ CaesarHill.matVec m v, 0 ≤ x ∧ x < 26 := by
  intro x hx
  rw [CaesarHill.matVec, List.mem_map] at hx
  obtain ⟨row, hrow, rfl⟩ := hx
  exact ⟨Int.emod_nonneg _ (by norm_num), Int.emod_lt_of_pos _ (by norm_num)⟩

theorem CaesarHill.matVec_length (m : List (List ℤ)) (v : List ℤ) :
    (CaesarHill.matVec m v).length = m.length :=
  List.length_map _ _

theorem CaesarHill.fixedKey_matVec_inverse (b : List ℤ) (hb : b.length = 2)
    (hrange : ∀ x ∈ b, 0 ≤ x ∧ x < 26) :
    CaesarHill.matVec [[15, 17], [20, 9]] (CaesarHill.matVec CaesarHill.fixedKey b) = b := by
  match b, hb with
  | [x, y], _ =>
    have hx := hrange x (by simp)
    have hy := hrange y (by simp)
    simp only [CaesarHill.matVec, CaesarHill.fixedKey, CaesarHill.dot, List.zip_cons_cons,
      List.zip_nil_right, List.map_cons, List.map_nil, List.sum_cons, List.sum_nil]
    rw [List.cons_eq_cons]
    constructor
    · omega
    · rw [List.cons_eq_cons]
      constructor
      · omega
      · rfl

theorem CaesarHill.numbers_roundtrip (l : List ℤ) (hl : ∀ x ∈ l, 0 ≤ x ∧ x < 26) :
    ((l.map fun num => Char.ofNat ((num + 65).toNat)).map CaesarHill.upperChar).map
      (fun c => (c.toNat : ℤ) - 65) = l := by
  rw [List.map_map, List.map_map]
  conv_rhs => rw [← List.map_id l]
  apply List.map_congr_left
  intro x hx
  have hr := hl x hx
  simp only [Function.comp, id]
  have htn : (Char.ofNat ((x + 65).toNat)).toNat = (x + 65).toNat :=
    Util.toNat_ofNat _ (by omega)
  rw [CaesarHill.upperChar_of_upper _ (by rw [htn]; omega), htn]
  omega

theorem CaesarHill.hill_chars_upper (l : List ℤ) (hl : ∀ x ∈ l, 0 ≤ x ∧ x < 26) :
    ∀ c ∈ l.map fun num => Char.ofNat ((num + 65).toNat),
      65 ≤ c.toNat ∧ c.toNat ≤ 90 := by
  intro c hc
  rw [List.mem_map] at hc
  obtain ⟨x, hx, rfl⟩ := hc
  have hr := hl x hx
  rw [Util.toNat_ofNat _ (by omega)]
  omega

theorem CaesarHill.hill_roundtrip (text : List Char)
    (h : ∀ c ∈ text, 65 ≤ c.toNat ∧ c.toNat ≤ 90) :
    CaesarHill.hill_decrypt (CaesarHill.hill_encrypt text CaesarHill.fixedKey)
        CaesarHill.fixedKey
      = some (text ++ List.replicate ((2 - text.length % 2) % 2) 'Z') := by
  have hik : CaesarHill.invKey CaesarHill.fixedKey = some [[15, 17], [20, 9]] := by decide
  set numbers := (text.map CaesarHill.upperChar).map (fun c => (c.toNat : ℤ) - 65)
    with hnum
  have hupper : text.map CaesarHill.upperChar = text := by
    conv_rhs => rw [← List.map_id text]
    exact List.map_congr_left fun c hc => CaesarHill.upperChar_of_upper c (h c hc)
  have hnum_eq : numbers = text.map fun c => (c.toNat : ℤ) - 65 := by rw [hnum, hupper]
  have hnum_range : ∀ x ∈ numbers, 0 ≤ x ∧ x < 26 := by
    intro x hx
    rw [hnum_eq, List.mem_map] at hx
    obtain ⟨c, hc, rfl⟩ := hx
    have := h c hc
    omega
  have hnum_len : numbers.length = text.length := by rw [hnum_eq, List.length_map]
  set padded := numbers ++ List.replicate ((2 - numbers.length % 2) % 2) 25 with hpadded
  have hpad_range : ∀ x ∈ padded, 0 ≤ x ∧ x < 26 := by
    intro x hx
    rw [hpadded, List.mem_append] at hx
    rcases hx with hx | hx
    · exact hnum_range x hx
    · rw [List.eq_of_mem_replicate hx]
      norm_num
  have hpad_len : padded.length % 2 = 0 := by
    rw [hpadded, List.length_append, List.length_replicate]
    omega
  set bs := Util.toBlocks 2 padded with hbs
  have hbs_len : ∀ b ∈ bs, b.length = 2 :=
    Util.length_of_mem_toBlocks 2 padded (by norm_num) hpad_len
  have hbs_range : ∀ b ∈ bs, ∀ x ∈ b, 0 ≤ x ∧ x < 26 := fun b hb x hx =>
    hpad_range x (Util.mem_of_mem_toBlocks 2 padded b x (by norm_num) hb hx)
  have henc : CaesarHill.hill_encrypt text CaesarHill.fixedKey
      = ((bs.map fun b => CaesarHill.matVec CaesarHill.fixedKey b).flatten).map
          (fun num => Char.ofNat ((num + 65).toNat)) := rfl
  have hflat_range : ∀ x ∈ (bs.map fun b => CaesarHill.matVec CaesarHill.fixedKey b).flatten,
      0 ≤ x ∧ x < 26 := by
    intro x hx
    rw [List.mem_flatten] at hx
    obtain ⟨l, hl, hxl⟩ := hx
    rw [List.mem_map] at hl
    obtain ⟨b, hb, rfl⟩ := hl
    exact CaesarHill.matVec_range _ _ x hxl
  have hnums2 : (((CaesarHill.hill_encrypt text CaesarHill.fixedKey).map
        CaesarHill.upperChar).map fun c => (c.toNat : ℤ) - 65)
      = (bs.map fun b => CaesarHill.matVec CaesarHill.fixedKey b).flatten := by
    rw [henc]
    exact CaesarHill.numbers_roundtrip _ hflat_range
  rw [CaesarHill.hill_decrypt, hik, Option.map_some']
  congr 1
  show (((Util.toBlocks CaesarHill.fixedKey.length
      (((CaesarHill.hill_encrypt text CaesarHill.fixedKey).map CaesarHill.upperChar).map
        fun c => (c.toNat : ℤ) - 65)).map fun block =>
          CaesarHill.matVec [[15, 17], [20, 9]] block).flatten).map
      (fun num => Char.ofNat ((num + 65).toNat))
    = text ++ List.replicate ((2 - text.length % 2) % 2) 'Z'
  rw [show CaesarHill.fixedKey.length = 2 from rfl, hnums2]
  rw [Util.toBlocks_flatten 2 (by norm_num) _ (by
    intro b hb
    rw [List.mem_map] at hb
    obtain ⟨b0, hb0, rfl⟩ := hb
    rw [CaesarHill.matVec_length]
    rfl)]
  have hinner : (bs.map fun b => CaesarHill.matVec CaesarHill.fixedKey b).map
      (fun block => CaesarHill.matVec [[15, 17], [20, 9]] block) = bs := by
    rw [List.map_map]
    conv_rhs => rw [← List.map_id bs]
    apply List.map_congr_left
    intro b hb
    exact CaesarHill.fixedKey_matVec_inverse b (hbs_len b hb) (hbs_range b hb)
  rw [hinner]
  rw [hbs, Util.flatten_toBlocks 2 (by norm_num) padded, hpadded, List.map_append]
  congr 1
  · rw [hnum_eq, List.map_map]
    conv_rhs => rw [← List.map_id text]
    apply List.map_congr_left
    intro c hc
    have hcb := h c hc
    simp only [Function.comp, id]
    apply Util.char_eq_of_toNat
    rw [Util.toNat_ofNat _ (by omega), ← Char.ofNat_toNat c]
    omega
  · rw [List.map_replicate, hnum_len]
    rfl

theorem CaesarHill.caesar_encrypt_upper (msg : List Char) (shift : ℤ)
    (halpha : ∀ c ∈ msg, (65 ≤ c.toNat ∧ c.toNat ≤ 90) ∨ (97 ≤ c.toNat ∧ c.toNat ≤ 122)) :
    ∀ c ∈ CaesarHill.caesar_encrypt msg shift, 65 ≤ c.toNat ∧ c.toNat ≤ 90 := by
  intro c hc
  rw [CaesarHill.caesar_encrypt, List.mem_map] at hc
  obtain ⟨a, ha, rfl⟩ := hc
  exact CaesarHill.shiftChar_upper shift a (halpha a ha)

/-- Counterexample to claim C3: for the odd-length alphabetic message `"A"`
and shift 1, the round trip yields `"AY"`, not the Z-padded uppercase
version `"AZ"` (the `'Z'` pad is appended after the Caesar stage, so the final
Caesar decryption un-shifts it). -/
theorem C3_hybrid_counterexample :
    (CaesarHill.hybrid_decrypt
        (CaesarHill.hybrid_encrypt ['A'] 1 CaesarHill.fixedKey).2
        1 CaesarHill.fixedKey).map Prod.snd = some ['A', 'Y']
    ∧ ['A', 'Y'] ≠ ['A', 'Z'] :=
  ⟨rfl, by decide⟩

/-- Claim C3 (amended): for the fixed key matrix `[[3,3],[2,5]]`, every shift
in `[1, 25]` and every message of ASCII letters, the hybrid round trip
reproduces the uppercased message followed, when the message length is odd, by
the one `'Z'` pad character un-shifted by the Caesar stage (the letter
`chr((25 - shift) mod 26 + 65)`), not by `'Z'`; in particular it equals the
Z-padded uppercase message exactly when no padding is needed (even length).
Messages with non-alphabetic characters are not restored either, since
`hill_encrypt` does not filter them. -/
theorem C3_hybrid_roundtrip (shift : ℤ) (msg : List Char)
    (h1 : 1 ≤ shift) (h2 : shift ≤ 25)
    (halpha : ∀ c ∈ msg, (65 ≤ c.toNat ∧ c.toNat ≤ 90) ∨ (97 ≤ c.toNat ∧ c.toNat ≤ 122)) :
    (CaesarHill.hybrid_decrypt
        (CaesarHill.hybrid_encrypt msg shift CaesarHill.fixedKey).2
        shift CaesarHill.fixedKey).map Prod.snd
      = some ((msg.map CaesarHill.upperChar)
          ++ List.replicate ((2 - msg.length % 2) % 2)
              (Char.ofNat (((25 - shift) % 26 + 65).toNat))) := by
  set co := CaesarHill.caesar_encrypt msg shift with hco
  have hco_upper : ∀ c ∈ co, 65 ≤ c.toNat ∧ c.toNat ≤ 90 :=
    CaesarHill.caesar_encrypt_upper msg shift halpha
  have hhd := CaesarHill.hill_roundtrip co hco_upper
  have hct : (CaesarHill.hybrid_encrypt msg shift CaesarHill.fixedKey).2
      = CaesarHill.hill_encrypt co CaesarHill.fixedKey := rfl
  rw [CaesarHill.hybrid_decrypt, hct, hhd, Option.map_some', Option.map_some']
  congr 1
  show CaesarHill.caesar_decrypt
      (co ++ List.replicate ((2 - co.length % 2) % 2) 'Z') shift = _
  rw [CaesarHill.caesar_decrypt, CaesarHill.caesar_encrypt, List.map_append]
  congr 1
  · exact CaesarHill.caesar_roundtrip msg shift halpha
  · rw [List.map_replicate]
    have hlen : co.length = msg.length := by
      rw [hco, CaesarHill.caesar_encrypt, List.length_map]
    rw [hlen]
    have hzc : CaesarHill.shiftChar (-shift) 'Z'
        = Char.ofNat (((25 - shift) % 26 + 65).toNat) := by
      unfold CaesarHill.shiftChar
      rw [CaesarHill.upperChar_of_upper 'Z' (by decide),
        if_pos (by decide : ('Z').isAlpha = true)]
      have h25 : (('Z').toNat : ℤ) - 65 + -shift = 25 - shift := by
        have h90 : (('Z').toNat : ℤ) = 90 := rfl
        rw [h90]
        ring
      rw [h25]
    rw [hzc]

/-- Witness for C3 at shift 3 and the odd-length message `"HELLO"`. -/
theorem C3_hybrid_roundtrip_witness :
    ((1 : ℤ) ≤ 3 ∧ (3 : ℤ) ≤ 25)
    ∧ (CaesarHill.hybrid_decrypt
        (CaesarHill.hybrid_encrypt ['H', 'E', 'L', 'L', 'O'] 3 CaesarHill.fixedKey).2
        3 CaesarHill.fixedKey).map Prod.snd
      = some ((['H', 'E', 'L', 'L', 'O'].map CaesarHill.upperChar)
          ++ List.replicate ((2 - (['H', 'E', 'L', 'L', 'O'].length) % 2) % 2)
              (Char.ofNat ((((25 : ℤ) - 3) % 26 + 65).toNat))) :=
  ⟨⟨by norm_num, by norm_num⟩,
   C3_hybrid_roundtrip 3 ['H', 'E', 'L', 'L', 'O'] (by norm_num) (by norm_num) (by decide)⟩

/-! ## Poly-Hill lemmas -/

theorem Util.mapWithIdx_congr (f g : ℕ → α → β) (k : ℕ) (l : List α)
    (h : ∀ q ∈ Util.mapWithIdx Prod.mk k l, f q.1 q.2 = g q.1 q.2) :
    Util.mapWithIdx f k l = Util.mapWithIdx g k l := by
  induction l generalizing k with
  | nil => rfl
  | cons x xs ih =>
    simp only [Util.mapWithIdx] at h ⊢
    rw [h ⟨k, x⟩ (List.mem_cons_self _ _), ih]
    intro q hq
    exact h q (List.mem_cons_of_mem _ hq)

theorem Util.mem_mapWithIdx (f : ℕ → α → β) (k : ℕ) (l : List α) (y : β)
    (hy : y ∈ Util.mapWithIdx f k l) :
    ∃ q ∈ Util.mapWithIdx Prod.mk k l, y = f q.1 q.2 := by
  induction l generalizing k with
  | nil => cases hy
  | cons x xs ih =>
    simp only [Util.mapWithIdx, List.mem_cons] at hy ⊢
    rcases hy with hy | hy
    · exact ⟨⟨k, x⟩, Or.inl rfl, hy⟩
    · obtain ⟨q, hq, hval⟩ := ih (k + 1) hy
      exact ⟨q, Or.inr hq, hval⟩

theorem PolyHill.xorZ_nonneg (a b : ℤ) : 0 ≤ PolyHill.xorZ a b :=
  Int.natCast_nonneg _

theorem PolyHill.xorZ_cancel (a b : ℤ) (ha : 0 ≤ a) :
    PolyHill.xorZ (PolyHill.xorZ a b) b = a := by
  unfold PolyHill.xorZ
  rw [Int.toNat_natCast, Nat.xor_cancel_right, Int.toNat_of_nonneg ha]

theorem PolyHill.polyEval_range (coeffs : List ℤ) (p x : ℤ) (hp : 0 < p) :
    0 ≤ PolyHill.polyEval coeffs p x ∧ PolyHill.polyEval coeffs p x < p := by
  rw [PolyHill.polyEval]
  generalize Util.mapWithIdx (fun i coeff => coeff * x ^ i) 0 coeffs = l
  induction l using List.reverseRecOn with
  | nil => exact ⟨le_refl 0, hp⟩
  | append_singleton ts t _ =>
    rw [List.foldl_append, List.foldl_cons, List.foldl_nil]
    exact ⟨Int.emod_nonneg _ (by omega), Int.emod_lt_of_pos _ hp⟩

theorem PolyHill.matVec_entries_range (m : List (List ℤ)) (p : ℤ) (v : List ℤ) (hp : 0 < p) :
    ∀ x ∈ PolyHill.matVec m p v, 0 ≤ x ∧ x < p := by
  intro x hx
  rw [PolyHill.matVec, List.mem_map] at hx
  obtain ⟨row, hrow, rfl⟩ := hx
  exact ⟨Int.emod_nonneg _ (by omega), Int.emod_lt_of_pos _ hp⟩

theorem PolyHill.length_matVec (m : List (List ℤ)) (p : ℤ) (v : List ℤ) :
    (PolyHill.matVec m p v).length = m.length :=
  List.length_map _ _

theorem PolyHill.obfuscateBlock_length (p : ℤ) (i : ℕ) (b : List ℤ) :
    (PolyHill.obfuscateBlock p i b).length = b.length :=
  Util.length_mapWithIdx _ _ _

theorem PolyHill.text_to_numbers_upper (pt : List Char)
    (h : ∀ c ∈ pt, 65 ≤ c.toNat ∧ c.toNat ≤ 90) :
    PolyHill.text_to_numbers pt = pt.map fun c => (c.toNat : ℤ) - 65 := by
  rw [PolyHill.text_to_numbers, List.filter_eq_self.mpr
    (fun c hc => by rw [Util.isAlpha_iff]; exact Or.inl (h c hc))]
  apply List.map_congr_left
  intro c hc
  rw [Util.toUpper_of_upper c (h c hc)]

theorem PolyHill.text_to_numbers_range (pt : List Char)
    (h : ∀ c ∈ pt, 65 ≤ c.toNat ∧ c.toNat ≤ 90) :
    ∀ x ∈ PolyHill.text_to_numbers pt, 0 ≤ x ∧ x < 26 := by
  rw [PolyHill.text_to_numbers_upper pt h]
  intro x hx
  rw [List.mem_map] at hx
  obtain ⟨c, hc, rfl⟩ := hx
  have := h c hc
  omega

theorem PolyHill.pad_text_eq (n : ℕ) (numbers : List ℤ)
    (h : numbers.length % n = 0) : PolyHill.pad_text n numbers = numbers := by
  rw [PolyHill.pad_text, h, Nat.sub_zero, Nat.mod_self, List.replicate_zero,
    List.append_nil]

theorem PolyHill.map_emod_obfuscateBlock (i : ℕ) (b : List ℤ) :
    (PolyHill.obfuscateBlock 26 i b).map (fun z => z % 26)
      = PolyHill.obfuscateBlock 26 i b := by
  rw [PolyHill.obfuscateBlock, Util.map_mapWithIdx]
  apply Util.mapWithIdx_congr
  intro q hq
  exact Int.emod_emod_of_dvd _ dvd_rfl

theorem PolyHill.deobf_obf (i : ℕ) (b : List ℤ)
    (hrange : ∀ x ∈ b, 0 ≤ x ∧ x < 26)
    (hnoof : ∀ r ∈ Util.mapWithIdx Prod.mk 0 b,
      PolyHill.xorZ r.2 (((i : ℤ) + (r.1 : ℤ)) % 26) < 26) :
    PolyHill.deobfuscateBlock 26 i (PolyHill.obfuscateBlock 26 i b) = b := by
  rw [PolyHill.deobfuscateBlock, PolyHill.obfuscateBlock, Util.mapWithIdx_comp]
  apply Util.mapWithIdx_eq_self
  intro q hq
  have hno := hnoof q hq
  have hmem : q.2 ∈ b := by
    have := List.mem_map_of_mem Prod.snd hq
    rwa [Util.map_snd_mapWithIdx] at this
  have hval := hrange q.2 hmem
  have h1 : PolyHill.xorZ q.2 (((i : ℤ) + (q.1 : ℤ)) % 26) % 26
      = PolyHill.xorZ q.2 (((i : ℤ) + (q.1 : ℤ)) % 26) :=
    Int.emod_eq_of_lt (PolyHill.xorZ_nonneg _ _) hno
  rw [h1, PolyHill.xorZ_cancel _ _ hval.1, Int.emod_eq_of_lt hval.1 hval.2]

theorem PolyHill.text_to_numbers_numbers_to_text (nums : List ℤ) :
    PolyHill.text_to_numbers (PolyHill.numbers_to_text 26 nums)
      = nums.map fun z => z % 26 := by
  have hch : ∀ num : ℤ, 65 ≤ (Char.ofNat ((num % 26 + 65).toNat)).toNat
      ∧ (Char.ofNat ((num % 26 + 65).toNat)).toNat ≤ 90 := by
    intro num
    have hm : (0 : ℤ) ≤ num % 26 ∧ num % 26 < 26 :=
      ⟨Int.emod_nonneg _ (by norm_num), Int.emod_lt_of_pos _ (by norm_num)⟩
    rw [Util.toNat_ofNat _ (by omega)]
    omega
  rw [PolyHill.numbers_to_text, PolyHill.text_to_numbers,
    List.filter_eq_self.mpr (by
      intro c hc
      rw [List.mem_map] at hc
      obtain ⟨num, hnum, rfl⟩ := hc
      rw [Util.isAlpha_iff]
      exact Or.inl (hch num)), List.map_map]
  apply List.map_congr_left
  intro num hnum
  have hm : (0 : ℤ) ≤ num % 26 ∧ num % 26 < 26 :=
    ⟨Int.emod_nonneg _ (by norm_num), Int.emod_lt_of_pos _ (by norm_num)⟩
  simp only [Function.comp]
  rw [Util.toUpper_of_upper _ (hch num), Util.toNat_ofNat _ (by omega)]
  omega

theorem PolyHill.numbers_to_text_text_to_numbers (pt : List Char)
    (h : ∀ c ∈ pt, 65 ≤ c.toNat ∧ c.toNat ≤ 90) :
    PolyHill.numbers_to_text 26 (PolyHill.text_to_numbers pt) = pt := by
  rw [PolyHill.text_to_numbers_upper pt h, PolyHill.numbers_to_text, List.map_map]
  conv_rhs => rw [← List.map_id pt]
  apply List.map_congr_left
  intro c hc
  have hcb := h c hc
  simp only [Function.comp, id]
  apply Util.char_eq_of_toNat
  have hx : ((c.toNat : ℤ) - 65) % 26 = (c.toNat : ℤ) - 65 :=
    Int.emod_eq_of_lt (by omega) (by omega)
  rw [hx, Util.toNat_ofNat _ (by omega)]
  omega

/-- Claim C1 (amended): the Poly-Hill round trip, under the two conditions the
code actually requires of "valid key material" and input: the polynomial
lookup must invert (`hbij`, i.e. the polynomial is a bijection mod 26 — not
enforced by key generation), and every XOR of the obfuscation stage must stay
below the modulus (`hnoof`) — otherwise the `% p` reduction after the XOR
loses information and decryption does not reverse the obfuscation.  Under
these conditions, for any matrix with its cached modular inverse (`hinv`) and
any uppercase plaintext whose length is a multiple of the block size,
`decrypt (encrypt plaintext)` is the plaintext with trailing `'X'` characters
stripped. -/
theorem C1_poly_hill_roundtrip (n : ℕ) (coeffs : List ℤ) (m mInv : List (List ℤ))
    (pt : List Char)
    (hn : 0 < n) (hm : m.length = n)
    (hpt : ∀ c ∈ pt, 65 ≤ c.toNat ∧ c.toNat ≤ 90)
    (hlen : pt.length % n = 0)
    (hbij : ∀ x : ℤ, 0 ≤ x → x < 26 →
      PolyHill.inverse_polynomial_transform coeffs 26 (PolyHill.polyEval coeffs 26 x) = x)
    (hinv : ∀ v : List ℤ, v.length = n → (∀ x ∈ v, 0 ≤ x ∧ x < 26) →
      PolyHill.matVec mInv 26 (PolyHill.matVec m 26 v) = v)
    (hnoof : ∀ q ∈ Util.mapWithIdx Prod.mk 0
        (Util.toBlocks n (PolyHill.text_to_numbers pt)),
      ∀ r ∈ Util.mapWithIdx Prod.mk 0
        (PolyHill.matVec m 26 ((q.2).map (PolyHill.polynomial_transform coeffs 26))),
          PolyHill.xorZ r.2 (((q.1 : ℤ) + (r.1 : ℤ)) % 26) < 26) :
    (PolyHill.encrypt ⟨n, 26, some coeffs, some m, some mInv⟩ pt).bind
      (fun ct => PolyHill.decrypt ⟨n, 26, some coeffs, some m, some mInv⟩ ct)
      = .ok (PolyHill.rstripX pt) := by
  have hnums_range := PolyHill.text_to_numbers_range pt hpt
  have hnums_len : (PolyHill.text_to_numbers pt).length % n = 0 := by
    rw [PolyHill.text_to_numbers_upper pt hpt, List.length_map]
    exact hlen
  have hbs_len : ∀ b ∈ Util.toBlocks n (PolyHill.text_to_numbers pt), b.length = n :=
    Util.length_of_mem_toBlocks n _ hn hnums_len
  have hbs_range : ∀ b ∈ Util.toBlocks n (PolyHill.text_to_numbers pt),
      ∀ x ∈ b, 0 ≤ x ∧ x < 26 := fun b hb x hx =>
    hnums_range x (Util.mem_of_mem_toBlocks n _ b x hn hb hx)
  have hencrypt : PolyHill.encrypt ⟨n, 26, some coeffs, some m, some mInv⟩ pt
      = .ok (PolyHill.numbers_to_text 26
          ((Util.mapWithIdx (PolyHill.encryptBlock coeffs m 26) 0
            (Util.toBlocks n (PolyHill.pad_text n (PolyHill.text_to_numbers pt)))).flatten)) :=
    rfl
  rw [hencrypt, PolyHill.pad_text_eq n _ hnums_len]
  show PolyHill.decrypt ⟨n, 26, some coeffs, some m, some mInv⟩
      (PolyHill.numbers_to_text 26
        ((Util.mapWithIdx (PolyHill.encryptBlock coeffs m 26) 0
          (Util.toBlocks n (PolyHill.text_to_numbers pt))).flatten))
    = .ok (PolyHill.rstripX pt)
  have hencB_len : ∀ e ∈ Util.mapWithIdx (PolyHill.encryptBlock coeffs m 26) 0
      (Util.toBlocks n (PolyHill.text_to_numbers pt)), e.length = n := by
    intro e he
    obtain ⟨q, hq, rfl⟩ := Util.mem_mapWithIdx _ _ _ e he
    rw [PolyHill.encryptBlock, PolyHill.obfuscateBlock_length, PolyHill.length_matVec, hm]
  have hdec0 : PolyHill.decrypt ⟨n, 26, some coeffs, some m, some mInv⟩
      (PolyHill.numbers_to_text 26
        ((Util.mapWithIdx (PolyHill.encryptBlock coeffs m 26) 0
          (Util.toBlocks n (PolyHill.text_to_numbers pt))).flatten))
      = .ok (PolyHill.rstripX (PolyHill.numbers_to_text 26
          ((Util.mapWithIdx (PolyHill.decryptBlock coeffs mInv 26) 0
            (Util.toBlocks n (PolyHill.text_to_numbers (PolyHill.numbers_to_text 26
              ((Util.mapWithIdx (PolyHill.encryptBlock coeffs m 26) 0
                (Util.toBlocks n (PolyHill.text_to_numbers pt))).flatten))))).flatten))) :=
    rfl
  rw [hdec0, PolyHill.text_to_numbers_numbers_to_text]
  have hmapemod : ((Util.mapWithIdx (PolyHill.encryptBlock coeffs m 26) 0
        (Util.toBlocks n (PolyHill.text_to_numbers pt))).flatten).map (fun z => z % 26)
      = (Util.mapWithIdx (PolyHill.encryptBlock coeffs m 26) 0
        (Util.toBlocks n (PolyHill.text_to_numbers pt))).flatten := by
    rw [List.map_flatten]
    congr 1
    conv_rhs => rw [← List.map_id (Util.mapWithIdx (PolyHill.encryptBlock coeffs m 26) 0
      (Util.toBlocks n (PolyHill.text_to_numbers pt)))]
    apply List.map_congr_left
    intro e he
    obtain ⟨q, hq, rfl⟩ := Util.mem_mapWithIdx _ _ _ e he
    rw [PolyHill.encryptBlock]
    exact PolyHill.map_emod_obfuscateBlock q.1 _
  rw [hmapemod, Util.toBlocks_flatten n hn _ hencB_len, Util.mapWithIdx_comp]
  have hblock : Util.mapWithIdx (fun i b =>
      PolyHill.decryptBlock coeffs mInv 26 i (PolyHill.encryptBlock coeffs m 26 i b)) 0
      (Util.toBlocks n (PolyHill.text_to_numbers pt))
      = Util.toBlocks n (PolyHill.text_to_numbers pt) := by
    apply Util.mapWithIdx_eq_self
    intro q hq
    have hqb : q.2 ∈ Util.toBlocks n (PolyHill.text_to_numbers pt) := by
      have := List.mem_map_of_mem Prod.snd hq
      rwa [Util.map_snd_mapWithIdx] at this
    have hblen := hbs_len q.2 hqb
    have hbrange := hbs_range q.2 hqb
    have hpb_range : ∀ x ∈ (q.2).map (PolyHill.polynomial_transform coeffs 26),
        0 ≤ x ∧ x < 26 := by
      intro x hx
      rw [List.mem_map] at hx
      obtain ⟨y, hy, rfl⟩ := hx
      exact PolyHill.polyEval_range coeffs 26 _ (by norm_num)
    have hpb_len : ((q.2).map (PolyHill.polynomial_transform coeffs 26)).length = n := by
      rw [List.length_map, hblen]
    rw [PolyHill.encryptBlock, PolyHill.decryptBlock,
      PolyHill.deobf_obf q.1 _ (PolyHill.matVec_entries_range m 26 _ (by norm_num)) (hnoof q hq),
      hinv _ hpb_len hpb_range, List.map_map]
    conv_rhs => rw [← List.map_id q.2]
    apply List.map_congr_left
    intro x hx
    have hxr := hbrange x hx
    simp only [Function.comp, id]
    rw [PolyHill.polynomial_transform, Int.emod_eq_of_lt hxr.1 hxr.2]
    exact hbij x hxr.1 hxr.2
  rw [hblock, Util.flatten_toBlocks n hn _,
    PolyHill.numbers_to_text_text_to_numbers pt hpt]

theorem PolyHill.sampleKey_inverse : ∀ v : List ℤ, v.length = 2 →
    (∀ x ∈ v, 0 ≤ x ∧ x < 26) →
    PolyHill.matVec [[1, 24], [25, 3]] 26 (PolyHill.matVec [[3, 2], [1, 1]] 26 v) = v := by
  intro v hv hr
  match v, hv with
  | [x, y], _ =>
    have hx := hr x (by simp)
    have hy := hr y (by simp)
    simp only [PolyHill.matVec, List.map_cons, List.map_nil, List.zip_cons_cons,
      List.zip_nil_right, List.sum_cons, List.sum_nil]
    rw [List.cons_eq_cons]
    refine ⟨by omega, ?_⟩
    rw [List.cons_eq_cons]
    exact ⟨by omega, rfl⟩

/-- Counterexample to claim C1: the obfuscation XOR is not inverted by the
`% p` reduction.  With the bijective polynomial `P(x) = 1 + 3x` (first
conjunct: its lookup inverts on every residue, so this key material is valid),
the invertible matrix `[[3,2],[1,1]]` installed via `set_keys`, and the
4-letter plaintext `"AAII"` (a multiple of the block size 2, no trailing
`X`), the second block's Hill output 24 at position 1 gives `24 XOR 2 = 26`,
which `% 26` collapses to 0, and decryption returns `"AAOM"`, not
`"AAII"`. -/
theorem C1_poly_hill_counterexample :
    (∀ x ∈ (List.range 26).map (fun k => (k : ℤ)),
      PolyHill.inverse_polynomial_transform [1, 3] 26
        (PolyHill.polyEval [1, 3] 26 x) = x)
    ∧ ((PolyHill.set_keys (PolyHill.init 2 26) [1, 3] [[3, 2], [1, 1]]).map fun c =>
        (PolyHill.encrypt c ['A', 'A', 'I', 'I']).map fun ct => PolyHill.decrypt c ct)
      = some (.ok (.ok ['A', 'A', 'O', 'M']))
    ∧ ['A', 'A', 'O', 'M'] ≠ ['A', 'A', 'I', 'I'] :=
  ⟨by decide, rfl, by decide⟩

/-- Witness for C1 at block size 2, polynomial `P(x) = 1 + 3x`, matrix
`[[3,2],[1,1]]` with inverse `[[1,24],[25,3]]`, plaintext `"HI"`. -/
theorem C1_poly_hill_roundtrip_witness :
    (0 < 2 ∧ (['H', 'I'] : List Char).length % 2 = 0)
    ∧ (PolyHill.encrypt ⟨2, 26, some [1, 3], some [[3, 2], [1, 1]],
          some [[1, 24], [25, 3]]⟩ ['H', 'I']).bind
        (fun ct => PolyHill.decrypt ⟨2, 26, some [1, 3], some [[3, 2], [1, 1]],
          some [[1, 24], [25, 3]]⟩ ct)
      = .ok (PolyHill.rstripX ['H', 'I']) :=
  ⟨by decide,
   C1_poly_hill_roundtrip 2 [1, 3] [[3, 2], [1, 1]] [[1, 24], [25, 3]] ['H', 'I']
    (by norm_num) rfl (by decide) (by decide)
    (by
      intro x h1 h2
      interval_cases x <;> decide)
    PolyHill.sampleKey_inverse
    (by decide)⟩
